import Mathlib

/-!
Shallow embedding of the celtic DPS optimizer.

Sources embedded here:
* `src/main.ts` — `Skill`, `generateAllGearChoices`, the exhaustive
  depth-first `findBestDamageSchedule` (inner function `dfs`) and
  `findBestDpsSetup`;
* `src/unnamed/part_000` — the bounded-frontier (breadth-first, capacity
  bounded per 5-second checkpoint) variant of `findBestDamageSchedule`;
* `src/main.cpp` — the C++ variant, which differs from `main.ts` in the
  time-boundary guards (an `EPS = 1e-9` tolerance on the cast-end test);
  those guards are embedded as separate predicates.

Numbers (`number` / `double` in the sources) are modelled as rationals.
The sources' unbounded recursion / `while` loops are modelled with an
explicit fuel argument: a call returns `none` when the fuel runs out
before the traversal finishes, and `some result` when the traversal
finishes — so `= some r` states that the source program terminates with
result `r`.  The mutable `nextAvailTimes` / `castSequence` buffers of the
TypeScript `dfs` are threaded through the recursion and returned, so the
source's mutate-then-restore (undo on backtrack) discipline is visible in
the model and provable about it.
-/

/-- A skill of the roster (`src/main.ts` lines 4–10): cast time, base
recast (cooldown), damage of one cast, and the discrete recast-reduction
percentages available for this skill. -/
structure Skill where
  skillName : String
  castTimeS : ℚ
  recastTimeS : ℚ
  damage : ℚ
  possibleSkillGear : List ℚ
  deriving DecidableEq, Inhabited

/-- Result of one schedule search (`src/main.ts` lines 13–16). -/
structure ScheduleResult where
  totalDamage : ℚ
  sequence : List String
  deriving DecidableEq, Inhabited

/-- Result of the whole optimisation (`src/main.ts` lines 149–154). -/
structure DpsResult where
  bestDamage : ℚ
  bestDps : ℚ
  chosenGearPercents : List ℚ
  castSequence : List String
  deriving DecidableEq, Inhabited

/-- `generateAllGearChoices`'s backtracking loop (`src/main.ts` lines
27–36): for each option of the first skill (outer loop), prefix it to
every combination of the remaining skills (recursion). -/
def gearBacktrack : List (List ℚ) → List (List ℚ)
  | [] => [[]]
  | opts :: rest => opts.bind fun g => (gearBacktrack rest).map fun c => g :: c

/-- `generateAllGearChoices` (`src/main.ts` lines 23–40): all ways of
picking exactly one recast percentage from each skill's
`possibleSkillGear`. -/
def generateAllGearChoices (skills : List Skill) : List (List ℚ) :=
  gearBacktrack (skills.map fun s => s.possibleSkillGear)

/-- The effective recast times (`src/main.ts` lines 62–65):
`skill.recastTimeS * (1 - gearCombo[i] / 100)`. -/
def effectiveRecast (skills : List Skill) (gearCombo : List ℚ) : List ℚ :=
  (List.range skills.length).map fun i =>
    (skills.getD i default).recastTimeS * (1 - gearCombo.getD i 0 / 100)

/-- Cast-end feasibility guard of the TypeScript exhaustive search
(`src/main.ts` line 110): the cast is skipped when
`castEnd > timeLimit` — no tolerance. -/
def tsCastEndExceeds (timeLimit castEnd : ℚ) : Bool := timeLimit < castEnd

/-- Availability guard of the TypeScript exhaustive search
(`src/main.ts` line 99): skill `i` is skipped when
`earliestStart > timeLimit` — no tolerance. -/
def tsAvailExceeds (timeLimit earliestStart : ℚ) : Bool := timeLimit < earliestStart

/-- Cast-end feasibility guard of the bounded-frontier search
(`src/unnamed/part_000`, `if (castEnd > timeLimit) continue;`) — no
tolerance. -/
def bfCastEndExceeds (timeLimit castEnd : ℚ) : Bool := timeLimit < castEnd

/-- Availability guard of the bounded-frontier search
(`src/unnamed/part_000`, `if (earliestStart > timeLimit) continue;`) — no
tolerance. -/
def bfAvailExceeds (timeLimit earliestStart : ℚ) : Bool := timeLimit < earliestStart

/-- The C++ floating-point tolerance (`src/main.cpp` line 11:
`static const double EPS = 1e-9`). -/
def cppEps : ℚ := 1 / 1000000000

/-- Cast-end feasibility guard of the C++ exhaustive search
(`src/main.cpp` line 100): the cast is skipped when
`castEnd > timeLimit + EPS`. -/
def cppCastEndExceeds (timeLimit castEnd : ℚ) : Bool := timeLimit + cppEps < castEnd

/-- Availability guard of the C++ exhaustive search (`src/main.cpp` line
94): skill `i` is skipped when `earliestStart > timeLimit` — no
tolerance, unlike the cast-end guard two lines below it. -/
def cppAvailExceeds (timeLimit earliestStart : ℚ) : Bool := timeLimit < earliestStart

/-- The running best of the search: best damage so far and the cast
sequence that achieved it. -/
abbrev Best := ℚ × List String

/-- The data threaded through the exhaustive search's loop: the running
best, the `nextAvailTimes` buffer, and the `castSequence` buffer. -/
abbrev DfsAcc := Best × List ℚ × List String

/-- The global-best update at the top of `dfs` (`src/main.ts` lines
85–88): record the current node when its total damage strictly exceeds
the best so far. -/
def updateBest (best : Best) (total : ℚ) (seq : List String) : Best :=
  if best.1 < total then (total, seq) else best

/-- Earliest start of skill `i`: its `nextAvailTimes` entry
(`src/main.ts` line 98). -/
def earliestStartOf (avail : List ℚ) (i : ℕ) : ℚ := avail.getD i 0

/-- Cast end of skill `i` from time `cur` with availability buffer
`avail` (`src/main.ts` lines 105–107):
`max(currentTime, earliestStart) + castTimeS`. -/
def castEndOf (skills : List Skill) (cur : ℚ) (avail : List ℚ) (i : ℕ) : ℚ :=
  max cur (earliestStartOf avail i) + (skills.getD i default).castTimeS

/-- The availability buffer after casting skill `i` (`src/main.ts` line
116): entry `i` becomes `castEnd + effectiveRecast[i]`. -/
def availAfterCast (skills : List Skill) (effRecast : List ℚ) (cur : ℚ)
    (avail : List ℚ) (i : ℕ) : List ℚ :=
  avail.set i (castEndOf skills cur avail i + effRecast.getD i 0)

/-- Both guards of the TypeScript exhaustive loop pass for skill `i`
(`src/main.ts` lines 99 and 110): the skill is available before the time
limit and its cast ends within the time limit. -/
def castAllowed (skills : List Skill) (tl cur : ℚ) (avail : List ℚ) (i : ℕ) : Bool :=
  !tsAvailExceeds tl (earliestStartOf avail i) &&
    !tsCastEndExceeds tl (castEndOf skills cur avail i)

/-- One iteration of the exhaustive search's `for` loop over skills
(`src/main.ts` lines 96–130), acting on the threaded accumulator
`(best, nextAvailTimes, castSequence)`.  `rec` is the recursive call at
the next depth.  On a cast the buffers are mutated (`set` / push), the
recursion runs, and its returned buffers are restored (`set` back to the
old value / pop), exactly as in the source. -/
def dfsStep (skills : List Skill) (effRecast : List ℚ) (tl : ℚ)
    (rec : ℚ → ℚ → List ℚ → List String → Best → Option DfsAcc)
    (cur total : ℚ) (acc : DfsAcc) (i : ℕ) : Option DfsAcc :=
  if tsAvailExceeds tl (earliestStartOf acc.2.1 i) then some acc
  else if tsCastEndExceeds tl (castEndOf skills cur acc.2.1 i) then some acc
  else
    match rec (castEndOf skills cur acc.2.1 i) (total + (skills.getD i default).damage)
        (availAfterCast skills effRecast cur acc.2.1 i)
        (acc.2.2 ++ [(skills.getD i default).skillName]) acc.1 with
    | none => none
    | some (best2, avail2, seq2) =>
        some (best2, avail2.set i (acc.2.1.getD i 0), seq2.dropLast)

/-- Run the loop iterations in order, propagating fuel exhaustion. -/
def runSteps (f : DfsAcc → ℕ → Option DfsAcc) : List ℕ → DfsAcc → Option DfsAcc
  | [], acc => some acc
  | i :: rest, acc =>
      match f acc i with
      | none => none
      | some acc2 => runSteps f rest acc2

/-- The exhaustive depth-first search `dfs` of `src/main.ts` (lines
78–131).  Arguments after the fuel: `currentTime`, `totalDamageSoFar`,
the `nextAvailTimes` buffer, the `castSequence` buffer, and the global
best.  Returns the updated best together with the final buffer contents
(the source mutates and restores them in place).  `none` means the fuel
ran out before the traversal finished. -/
def dfs (skills : List Skill) (effRecast : List ℚ) (tl : ℚ) :
    ℕ → ℚ → ℚ → List ℚ → List String → Best → Option DfsAcc
  | 0, _, _, _, _, _ => none
  | fuel + 1, cur, total, avail, seq, best =>
      runSteps
        (dfsStep skills effRecast tl
          (fun c t a s b => dfs skills effRecast tl fuel c t a s b) cur total)
        (List.range skills.length) (updateBest best total seq, avail, seq)

/-- `findBestDamageSchedule` of `src/main.ts` (lines 55–141), exhaustive
strategy: precompute the effective recasts, run `dfs` from the root state
(time 0, all skills available at 0, empty sequence, best damage 0), and
return the best damage and sequence. -/
def findBestDamageSchedule (skills : List Skill) (gearCombo : List ℚ)
    (timeLimit : ℚ) (fuel : ℕ) : Option ScheduleResult :=
  (dfs skills (effectiveRecast skills gearCombo) timeLimit fuel
      0 0 (List.replicate skills.length 0) [] (0, [])).map
    fun acc => { totalDamage := acc.1.1, sequence := acc.1.2 }

/-- Legality of a sequence of skill indices, read off the code's loop
guards: from state `(cur, avail)`, the cast of skill `i` is legal when
`i` is a roster index and both guards of `src/main.ts` lines 99/110 pass;
the cast then moves the state to
`(castEnd, avail[i ↦ castEnd + effectiveRecast i])`. -/
def legalFromB (skills : List Skill) (effRecast : List ℚ) (tl : ℚ) :
    ℚ → List ℚ → List ℕ → Bool
  | _, _, [] => true
  | cur, avail, i :: rest =>
      decide (i < skills.length) && castAllowed skills tl cur avail i &&
        legalFromB skills effRecast tl (castEndOf skills cur avail i)
          (availAfterCast skills effRecast cur avail i) rest

/-- Legality of a sequence of skill indices as the specification words
it: each cast of action `i` starts at
`max(currentTime, nextAvailableTime[i])` and must end by `timeLimit`,
and `nextAvailableTime[i]` becomes `castEnd + effectiveCooldown_i`.
(The code additionally skips a skill whose `nextAvailableTime` exceeds
`timeLimit`; for non-negative cast durations the two notions agree.) -/
def legalClaimB (skills : List Skill) (effRecast : List ℚ) (tl : ℚ) :
    ℚ → List ℚ → List ℕ → Bool
  | _, _, [] => true
  | cur, avail, i :: rest =>
      decide (i < skills.length) && decide (castEndOf skills cur avail i ≤ tl) &&
        legalClaimB skills effRecast tl (castEndOf skills cur avail i)
          (availAfterCast skills effRecast cur avail i) rest

/-- Total damage of a sequence of skill indices: the sum of the cast
skills' damage values. -/
def seqDamage (skills : List Skill) (is : List ℕ) : ℚ :=
  (is.map fun i => (skills.getD i default).damage).sum

/-- The names of the skills cast in a sequence of skill indices. -/
def seqNames (skills : List Skill) (is : List ℕ) : List String :=
  is.map fun i => (skills.getD i default).skillName

/-- Replay a sequence of skill indices from state `(cur, avail)` and
return the final `(currentTime, nextAvailTimes)`. -/
def replayState (skills : List Skill) (effRecast : List ℚ) :
    ℚ → List ℚ → List ℕ → ℚ × List ℚ
  | cur, avail, [] => (cur, avail)
  | cur, avail, i :: rest =>
      replayState skills effRecast (castEndOf skills cur avail i)
        (availAfterCast skills effRecast cur avail i) rest

/-- A search state of the bounded-frontier (breadth-first) strategy
(`src/unnamed/part_000`, `interface State`). -/
structure BState where
  currentTime : ℚ
  damageSoFar : ℚ
  nextAvail : List ℚ
  castSequence : List String
  deriving DecidableEq, Inhabited

/-- The checkpoint bucket of a cast end (`src/unnamed/part_000`:
`Math.floor(castEnd / 5) * 5`; the checkpoint width 5 is hardcoded
there). -/
def checkpointOf (castEnd : ℚ) : ℚ := (⌊castEnd / 5⌋ : ℤ) * 5

/-- Insert a state into a per-checkpoint retention queue ordered by
ascending `damageSoFar`.  This models the library min-priority queue of
`src/unnamed/part_000` (`new MinPriorityQueue<State>((state) =>
state.damageSoFar)`) as a sorted list; among equal damages the earlier
insertion stays first (the library leaves the tie order unspecified). -/
def pqInsert (s : BState) : List BState → List BState
  | [] => [s]
  | t :: rest =>
      if s.damageSoFar < t.damageSoFar then s :: t :: rest else t :: pqInsert s rest

/-- The per-checkpoint retention queues (`topStatesPerCheckpoint` of
`src/unnamed/part_000`), as an association list from checkpoint to
queue. -/
abbrev Heaps := List (ℚ × List BState)

/-- Look up the retention queue of a checkpoint (an absent key plays the
role of the empty queue that `ensureQueueForCheckpoint` creates). -/
def heapsGet : Heaps → ℚ → List BState
  | [], _ => []
  | p :: rest, cp => if p.1 = cp then p.2 else heapsGet rest cp

/-- Store the retention queue of a checkpoint. -/
def heapsSet (cp : ℚ) (h : List BState) : Heaps → Heaps
  | [] => [(cp, h)]
  | p :: rest => if p.1 = cp then (cp, h) :: rest else p :: heapsSet cp h rest

/-- Total number of retained states across all checkpoints. -/
def heapsSize (hs : Heaps) : ℕ := (hs.map fun p => p.2.length).sum

/-- The successor state generated by casting skill `i` from state `st`
(`src/unnamed/part_000`, construction of `newState`). -/
def mkChild (skills : List Skill) (effRecast : List ℚ) (st : BState) (i : ℕ) : BState :=
  { currentTime := castEndOf skills st.currentTime st.nextAvail i
    damageSoFar := st.damageSoFar + (skills.getD i default).damage
    nextAvail := availAfterCast skills effRecast st.currentTime st.nextAvail i
    castSequence := st.castSequence ++ [(skills.getD i default).skillName] }

/-- The expansion loop of the bounded-frontier search
(`src/unnamed/part_000`, `for (let i = 0; i < skills.length; i++)`
inside the BFS `while` loop): for every skill whose guards pass, build
the successor; retain and enqueue it if the checkpoint's retention queue
is below capacity `K`, otherwise evict the minimum-damage retained state
when the successor strictly beats it, else prune the successor.  The
source hardcodes `K = 10000`; it is a parameter here.  Returns the
extended work queue and the updated retention queues. -/
def expand (skills : List Skill) (effRecast : List ℚ) (tl : ℚ) (K : ℕ)
    (st : BState) : List ℕ → List BState → Heaps → List BState × Heaps
  | [], q, hs => (q, hs)
  | i :: rest, q, hs =>
      let skill := skills.getD i default
      let earliestStart := st.nextAvail.getD i 0
      if bfAvailExceeds tl earliestStart then
        expand skills effRecast tl K st rest q hs
      else
        let startTime := max st.currentTime earliestStart
        let castEnd := startTime + skill.castTimeS
        if bfCastEndExceeds tl castEnd then
          expand skills effRecast tl K st rest q hs
        else
          let newState := mkChild skills effRecast st i
          let cp := checkpointOf castEnd
          let heap := heapsGet hs cp
          if heap.length < K then
            expand skills effRecast tl K st rest (q ++ [newState])
              (heapsSet cp (pqInsert newState heap) hs)
          else
            match heap.head? with
            | some worstTopState =>
                if worstTopState.damageSoFar < newState.damageSoFar then
                  expand skills effRecast tl K st rest (q ++ [newState])
                    (heapsSet cp (pqInsert newState heap.tail) hs)
                else
                  expand skills effRecast tl K st rest q hs
            | none => expand skills effRecast tl K st rest q hs

/-- The breadth-first `while (!queue.isEmpty())` loop of
`src/unnamed/part_000`: dequeue a state, update the global best when its
damage strictly exceeds it, expand every skill, and continue.  `none`
means the fuel ran out with a non-empty queue. -/
def bfsLoop (skills : List Skill) (effRecast : List ℚ) (tl : ℚ) (K : ℕ) :
    ℕ → List BState → Heaps → Best → Option Best
  | _, [], _, best => some best
  | 0, _ :: _, _, _ => none
  | fuel + 1, st :: queue, hs, best =>
      let best1 := if best.1 < st.damageSoFar then (st.damageSoFar, st.castSequence) else best
      let step := expand skills effRecast tl K st (List.range skills.length) queue hs
      bfsLoop skills effRecast tl K fuel step.1 step.2 best1

/-- The root state of the bounded-frontier search: time 0, damage 0, all
skills available at 0, empty history. -/
def initialBState (skills : List Skill) : BState :=
  { currentTime := 0, damageSoFar := 0
    nextAvail := List.replicate skills.length 0, castSequence := [] }

/-- `findBestDamageSchedule` of `src/unnamed/part_000`, bounded-frontier
strategy, with the retention capacity `K` (hardcoded to `10000` in the
source) as a parameter. -/
def findBestDamageScheduleBounded (skills : List Skill) (gearCombo : List ℚ)
    (timeLimit : ℚ) (K : ℕ) (fuel : ℕ) : Option ScheduleResult :=
  (bfsLoop skills (effectiveRecast skills gearCombo) timeLimit K fuel
      [initialBState skills] [] (0, [])).map
    fun b => { totalDamage := b.1, sequence := b.2 }

/-- Sum of the gear percentages of a combo (`gearCombo.reduce((a, b) =>
a + b, 0)` in `src/main.ts` lines 178/181). -/
def gearCost (gearCombo : List ℚ) : ℚ := gearCombo.foldl (· + ·) 0

/-- The running accumulator of `findBestDpsSetup`'s loop:
`topDamage`, `topSequence`, `bestGear`, `bestGearCost` (the last starts
at `Number.POSITIVE_INFINITY`, modelled as `⊤ : WithTop ℚ`). -/
abbrev DpsAcc := ℚ × List String × List ℚ × WithTop ℚ

/-- The loop of `findBestDpsSetup` over the enumerated gear combos
(`src/main.ts` lines 163–188): run the schedule search for the combo;
strictly larger damage replaces the running best outright, equal damage
replaces it only when the combo's summed gear cost is strictly lower. -/
def dpsLoop (skills : List Skill) (tl : ℚ) (fuel : ℕ) :
    List (List ℚ) → DpsAcc → Option DpsAcc
  | [], acc => some acc
  | gearCombo :: rest, acc =>
      match findBestDamageSchedule skills gearCombo tl fuel with
      | none => none
      | some r =>
          if acc.1 < r.totalDamage then
            dpsLoop skills tl fuel rest
              (r.totalDamage, r.sequence, gearCombo, (gearCost gearCombo : ℚ))
          else if r.totalDamage = acc.1 then
            if (gearCost gearCombo : WithTop ℚ) < acc.2.2.2 then
              dpsLoop skills tl fuel rest
                (acc.1, r.sequence, gearCombo, (gearCost gearCombo : ℚ))
            else dpsLoop skills tl fuel rest acc
          else dpsLoop skills tl fuel rest acc

/-- `findBestDpsSetup` of `src/main.ts` (lines 146–198): enumerate every
gear combo, keep the best result (ties broken towards the cheaper gear),
and derive `bestDps = topDamage / timeLimit`. -/
def findBestDpsSetup (skills : List Skill) (timeLimit : ℚ) (fuel : ℕ) :
    Option DpsResult :=
  (dpsLoop skills timeLimit fuel (generateAllGearChoices skills) (0, [], [], ⊤)).map
    fun acc =>
      { bestDamage := acc.1, bestDps := acc.1 / timeLimit
        chosenGearPercents := acc.2.2.1, castSequence := acc.2.1 }

/-! ### Lemmas about the gear-combination enumeration -/

theorem gearBacktrack_length (L : List (List ℚ)) :
    (gearBacktrack L).length = (L.map List.length).prod := by
  induction L with
  | nil => simp [gearBacktrack]
  | cons opts rest ih =>
      simp [gearBacktrack, List.length_bind, Function.comp_def, ih, List.map_const',
        List.sum_replicate, smul_eq_mul, Nat.mul_comm]

theorem gearBacktrack_mem (L : List (List ℚ)) (c : List ℚ) :
    c ∈ gearBacktrack L ↔ List.Forall₂ (fun g opts => g ∈ opts) c L := by
  induction L generalizing c with
  | nil => simp [gearBacktrack, List.forall₂_nil_right_iff]
  | cons opts rest ih =>
      simp only [gearBacktrack, List.mem_bind, List.mem_map,
        List.forall₂_cons_right_iff]
      constructor
      · rintro ⟨g, hg, d, hd, rfl⟩
        exact ⟨g, d, hg, (ih d).mp hd, rfl⟩
      · rintro ⟨g, d, hg, hd, rfl⟩
        exact ⟨g, hg, d, (ih d).mpr hd, rfl⟩

theorem gearBacktrack_nodup (L : List (List ℚ)) (h : ∀ opts ∈ L, opts.Nodup) :
    (gearBacktrack L).Nodup := by
  induction L with
  | nil => simp [gearBacktrack]
  | cons opts rest ih =>
      rw [gearBacktrack, List.nodup_bind]
      constructor
      · exact fun g _ =>
          (ih fun o ho => h o (List.mem_cons_of_mem _ ho)).map List.cons_injective
      · have hopts : opts.Nodup := h opts (List.mem_cons_self _ _)
        refine hopts.imp ?_
        intro a b hab
        simp only [Function.onFun]
        intro x hxa hxb
        obtain ⟨da, _, rfl⟩ := List.mem_map.mp hxa
        obtain ⟨db, _, hdb⟩ := List.mem_map.mp hxb
        injection hdb with h1 h2
        exact hab h1.symm

/-- C4: `generateAllGearChoices` returns exactly the Cartesian product of
the skills' gear-option sets: the count is the product of the option-set
sizes, membership is exactly "one option chosen per skill, in order",
the result has no duplicate assignment when the option sets have none,
and the enumeration order is the outer-to-inner order: the combos for
`s :: ss` are, for each option `g` of `s` in order, `g` prefixed to the
combos of `ss` in order. -/
theorem C4_gearComboEnumerator_cartesian (skills : List Skill) :
    (generateAllGearChoices skills).length
        = (skills.map fun s => s.possibleSkillGear.length).prod
    ∧ (∀ c : List ℚ, c ∈ generateAllGearChoices skills
        ↔ List.Forall₂ (fun g s => g ∈ s.possibleSkillGear) c skills)
    ∧ ((∀ s ∈ skills, s.possibleSkillGear.Nodup) → (generateAllGearChoices skills).Nodup)
    ∧ ∀ (s : Skill) (ss : List Skill), generateAllGearChoices (s :: ss)
        = s.possibleSkillGear.bind fun g => (generateAllGearChoices ss).map fun c => g :: c := by
  refine ⟨?_, ?_, ?_, ?_⟩
  · rw [generateAllGearChoices, gearBacktrack_length, List.map_map]
    rfl
  · intro c
    rw [generateAllGearChoices, gearBacktrack_mem, List.forall₂_map_right_iff]
  · intro h
    refine gearBacktrack_nodup _ fun opts hopts => ?_
    obtain ⟨s, hs, rfl⟩ := List.mem_map.mp hopts
    exact h s hs
  · intro s ss
    simp [generateAllGearChoices, gearBacktrack]

/-- Witness for C4 on a concrete roster of two skills with two and one
gear options. -/
theorem C4_gearComboEnumerator_cartesian_witness :
    (generateAllGearChoices [⟨"F", 1, 6, 10, [0, 15]⟩, ⟨"G", 2, 8, 7, [30]⟩]).length
        = ([⟨"F", 1, 6, 10, [0, 15]⟩, ⟨"G", 2, 8, 7, [30]⟩].map
            fun s : Skill => s.possibleSkillGear.length).prod
    ∧ (∀ c : List ℚ, c ∈ generateAllGearChoices [⟨"F", 1, 6, 10, [0, 15]⟩, ⟨"G", 2, 8, 7, [30]⟩]
        ↔ List.Forall₂ (fun g s => g ∈ s.possibleSkillGear) c
            ([⟨"F", 1, 6, 10, [0, 15]⟩, ⟨"G", 2, 8, 7, [30]⟩] : List Skill))
    ∧ ((∀ s ∈ ([⟨"F", 1, 6, 10, [0, 15]⟩, ⟨"G", 2, 8, 7, [30]⟩] : List Skill),
          s.possibleSkillGear.Nodup)
        → (generateAllGearChoices [⟨"F", 1, 6, 10, [0, 15]⟩, ⟨"G", 2, 8, 7, [30]⟩]).Nodup)
    ∧ ∀ (s : Skill) (ss : List Skill), generateAllGearChoices (s :: ss)
        = s.possibleSkillGear.bind fun g => (generateAllGearChoices ss).map fun c => g :: c :=
  C4_gearComboEnumerator_cartesian [⟨"F", 1, 6, 10, [0, 15]⟩, ⟨"G", 2, 8, 7, [30]⟩]

/-- C7 counterexample: there is no single tolerance `ε` that both the
C++ exhaustive strategy and the bounded-frontier strategy apply to the
cast-end feasibility test: the C++ guard accepts a cast ending at
`timeLimit + 1e-9` (rejecting only past `timeLimit + EPS`), while the
bounded-frontier guard rejects it (its threshold is `timeLimit`
exactly). -/
theorem C7_epsilon_counterexample :
    ¬ ∃ ε : ℚ, (∀ tl x : ℚ, cppCastEndExceeds tl x = decide (tl + ε < x))
      ∧ ∀ tl x : ℚ, bfCastEndExceeds tl x = decide (tl + ε < x) := by
  rintro ⟨ε, hc, hb⟩
  have h := (hc 0 cppEps).trans (hb 0 cppEps).symm
  simp only [cppCastEndExceeds, bfCastEndExceeds, cppEps] at h
  norm_num at h

/-- C7 amended: each individual variant applies a fixed tolerance to its
cast-end test — `0` for the TypeScript exhaustive strategy and the
bounded-frontier strategy (which therefore agree), `1e-9` for the C++
exhaustive strategy — and every availability test (all three variants)
uses tolerance `0`; so the tolerance is consistent between the two
TypeScript-variant strategies but not across the C++ variant, nor inside
the C++ variant between its two tests. -/
theorem C7_epsilon_amended :
    (∀ tl x : ℚ, bfCastEndExceeds tl x = tsCastEndExceeds tl x)
    ∧ (∀ tl x : ℚ, tsCastEndExceeds tl x = decide (tl + 0 < x))
    ∧ (∀ tl x : ℚ, cppCastEndExceeds tl x = decide (tl + cppEps < x))
    ∧ (∀ tl e : ℚ, tsAvailExceeds tl e = decide (tl + 0 < e)
        ∧ bfAvailExceeds tl e = decide (tl + 0 < e)
        ∧ cppAvailExceeds tl e = decide (tl + 0 < e))
    ∧ 0 < cppEps := by
  refine ⟨fun tl x => rfl, fun tl x => ?_, fun tl x => rfl, fun tl e => ?_, by norm_num [cppEps]⟩
  · simp [tsCastEndExceeds]
  · simp [tsAvailExceeds, bfAvailExceeds, cppAvailExceeds]

/-- C6: the code performs no input validation at all.  Evaluating
`findBestDpsSetup` at an invalid roster — here a skill whose
`possibleSkillGear` is empty, which §7 of the specification says must
fail fast with a descriptive error — silently succeeds with a
zero-damage result: the gear enumeration is empty, so the loop body
never runs and the initial accumulator is returned as the answer. -/
theorem C6_missing_validation_silent_zero :
    findBestDpsSetup [⟨"Bad", 1, 5, 10, []⟩] 10 5
      = some { bestDamage := 0, bestDps := 0, chosenGearPercents := [],
               castSequence := [] } := by
  with_unfolding_all rfl

/-! ### Core lemmas about the exhaustive depth-first search -/

theorem List.set_getD_self (l : List ℚ) : ∀ i : ℕ, l.set i (l.getD i 0) = l := by
  induction l with
  | nil => intro i; rfl
  | cons x xs ih =>
      intro i
      cases i with
      | zero => rfl
      | succ j => simpa using congrArg (List.cons x) (ih j)

/-- Unfold one loop iteration of the exhaustive search into the shared
guard/step vocabulary. -/
theorem dfsStep_eq (skills : List Skill) (effRecast : List ℚ) (tl : ℚ)
    (rec : ℚ → ℚ → List ℚ → List String → Best → Option DfsAcc)
    (cur total : ℚ) (best : Best) (avail : List ℚ) (seq : List String) (i : ℕ) :
    dfsStep skills effRecast tl rec cur total (best, avail, seq) i =
      if castAllowed skills tl cur avail i then
        match rec (castEndOf skills cur avail i) (total + (skills.getD i default).damage)
            (availAfterCast skills effRecast cur avail i)
            (seq ++ [(skills.getD i default).skillName]) best with
        | none => none
        | some (best2, avail2, seq2) =>
            some (best2, avail2.set i (avail.getD i 0), seq2.dropLast)
      else some (best, avail, seq) := by
  cases h1 : tsAvailExceeds tl (earliestStartOf avail i) with
  | true => simp [dfsStep, castAllowed, h1]
  | false =>
      cases h2 : tsCastEndExceeds tl (castEndOf skills cur avail i) with
      | true => simp [dfsStep, castAllowed, h1, h2]
      | false => simp [dfsStep, castAllowed, h1, h2]

theorem updateBest_fst_le (best : Best) (total : ℚ) (seq : List String) :
    best.1 ≤ (updateBest best total seq).1 ∧ total ≤ (updateBest best total seq).1 := by
  by_cases h : best.1 < total <;> simp [updateBest, h] <;> [exact le_of_lt h; exact le_of_not_lt h]

theorem updateBest_cases (best : Best) (total : ℚ) (seq : List String) :
    updateBest best total seq = best ∨ updateBest best total seq = (total, seq) := by
  by_cases h : best.1 < total <;> simp [updateBest, h]

/-- The bundled specification of `dfs` at a given fuel: the returned
buffers equal the entry buffers (the undo-on-backtrack discipline), the
returned best is at least the entry best and the entry node's total, the
returned best is the entry best or the value of some legal sequence from
the entry state (soundness), and it dominates every legal sequence from
the entry state (completeness). -/
def DfsSpec (skills : List Skill) (effRecast : List ℚ) (tl : ℚ) (fuel : ℕ) : Prop :=
  ∀ cur total avail seq best r,
    dfs skills effRecast tl fuel cur total avail seq best = some r →
    r.2.1 = avail ∧ r.2.2 = seq
    ∧ best.1 ≤ r.1.1 ∧ total ≤ r.1.1
    ∧ (r.1 = best ∨ ∃ is, legalFromB skills effRecast tl cur avail is = true
        ∧ r.1.1 = total + seqDamage skills is ∧ r.1.2 = seq ++ seqNames skills is)
    ∧ ∀ is, legalFromB skills effRecast tl cur avail is = true →
        total + seqDamage skills is ≤ r.1.1

/-- The corresponding specification of the remaining loop iterations of
one `dfs` node, with child calls at the given fuel. -/
def RunSpec (skills : List Skill) (effRecast : List ℚ) (tl : ℚ) (fuel : ℕ) : Prop :=
  ∀ l, (∀ i ∈ l, i < skills.length) →
    ∀ cur total avail seq best r,
    runSteps
        (dfsStep skills effRecast tl
          (fun c t a s b => dfs skills effRecast tl fuel c t a s b) cur total)
        l (best, avail, seq) = some r →
    r.2.1 = avail ∧ r.2.2 = seq
    ∧ best.1 ≤ r.1.1
    ∧ (r.1 = best ∨ ∃ is, legalFromB skills effRecast tl cur avail is = true
        ∧ r.1.1 = total + seqDamage skills is ∧ r.1.2 = seq ++ seqNames skills is)
    ∧ ∀ i ∈ l, castAllowed skills tl cur avail i = true →
        ∀ is, legalFromB skills effRecast tl (castEndOf skills cur avail i)
            (availAfterCast skills effRecast cur avail i) is = true →
          total + (skills.getD i default).damage + seqDamage skills is ≤ r.1.1

theorem dfsStep_of_allowed {skills : List Skill} {effRecast : List ℚ} {tl : ℚ}
    (rec : ℚ → ℚ → List ℚ → List String → Best → Option DfsAcc)
    {cur total : ℚ} {best : Best} {avail : List ℚ} {seq : List String} {i : ℕ}
    (hca : castAllowed skills tl cur avail i = true) :
    dfsStep skills effRecast tl rec cur total (best, avail, seq) i =
      match rec (castEndOf skills cur avail i) (total + (skills.getD i default).damage)
          (availAfterCast skills effRecast cur avail i)
          (seq ++ [(skills.getD i default).skillName]) best with
      | none => none
      | some (best2, avail2, seq2) =>
          some (best2, avail2.set i (avail.getD i 0), seq2.dropLast) := by
  rw [dfsStep_eq, if_pos hca]

theorem dfsStep_of_skip {skills : List Skill} {effRecast : List ℚ} {tl : ℚ}
    (rec : ℚ → ℚ → List ℚ → List String → Best → Option DfsAcc)
    {cur total : ℚ} {best : Best} {avail : List ℚ} {seq : List String} {i : ℕ}
    (hca : castAllowed skills tl cur avail i = false) :
    dfsStep skills effRecast tl rec cur total (best, avail, seq) i
      = some (best, avail, seq) := by
  rw [dfsStep_eq, if_neg]
  simp [hca]

theorem legalFromB_cons {skills : List Skill} {effRecast : List ℚ} {tl cur : ℚ}
    {avail : List ℚ} {i : ℕ} {is : List ℕ} :
    legalFromB skills effRecast tl cur avail (i :: is) = true ↔
      i < skills.length ∧ castAllowed skills tl cur avail i = true ∧
        legalFromB skills effRecast tl (castEndOf skills cur avail i)
          (availAfterCast skills effRecast cur avail i) is = true := by
  simp [legalFromB, Bool.and_eq_true, and_assoc]

theorem seqDamage_cons (skills : List Skill) (i : ℕ) (is : List ℕ) :
    seqDamage skills (i :: is) = (skills.getD i default).damage + seqDamage skills is := by
  simp [seqDamage]

theorem seqNames_cons (skills : List Skill) (i : ℕ) (is : List ℕ) :
    seqNames skills (i :: is) = (skills.getD i default).skillName :: seqNames skills is := by
  simp [seqNames]

theorem availAfterCast_undo (skills : List Skill) (effRecast : List ℚ)
    (cur : ℚ) (avail : List ℚ) (i : ℕ) :
    (availAfterCast skills effRecast cur avail i).set i (avail.getD i 0) = avail := by
  rw [availAfterCast, List.set_set, List.set_getD_self]

/-- The joint specification of the exhaustive search, proved for every
fuel by induction: the node-level bundle `DfsSpec` and the loop-level
bundle `RunSpec`. -/
theorem dfs_spec (skills : List Skill) (effRecast : List ℚ) (tl : ℚ) :
    ∀ fuel, DfsSpec skills effRecast tl fuel ∧ RunSpec skills effRecast tl fuel := by
  intro fuel
  induction fuel with
  | zero =>
      constructor
      · intro cur total avail seq best r h
        simp [dfs] at h
      · intro l
        induction l with
        | nil =>
            intro hl cur total avail seq best r h
            simp only [runSteps, Option.some.injEq] at h
            refine ⟨(congrArg (fun a => a.2.1) h).symm, (congrArg (fun a => a.2.2) h).symm,
              le_of_eq (congrArg (fun a => a.1.1) h), Or.inl (congrArg Prod.fst h).symm, ?_⟩
            intro i hi
            cases hi
        | cons i rest ihl =>
            intro hl cur total avail seq best r h
            simp only [runSteps] at h
            cases hca : castAllowed skills tl cur avail i with
            | false =>
                rw [dfsStep_of_skip _ hca] at h
                obtain ⟨ha, hs, hble, hsound, hper⟩ :=
                  ihl (fun j hj => hl j (List.mem_cons_of_mem _ hj)) cur total avail seq best r h
                refine ⟨ha, hs, hble, hsound, ?_⟩
                intro j hj hcaj is' hleg'
                rcases List.mem_cons.mp hj with rfl | hj'
                · rw [hca] at hcaj; cases hcaj
                · exact hper j hj' hcaj is' hleg'
            | true =>
                rw [dfsStep_of_allowed _ hca] at h
                have hnone : dfs skills effRecast tl 0 (castEndOf skills cur avail i)
                    (total + (skills.getD i default).damage)
                    (availAfterCast skills effRecast cur avail i)
                    (seq ++ [(skills.getD i default).skillName]) best = none := by
                  simp [dfs]
                rw [hnone] at h
                cases h
  | succ fuel ih =>
      have hdfs : DfsSpec skills effRecast tl (fuel + 1) := by
        intro cur total avail seq best r h
        rw [dfs] at h
        obtain ⟨ha, hs, hble, hsound, hper⟩ :=
          ih.2 (List.range skills.length) (fun j hj => List.mem_range.mp hj)
            cur total avail seq (updateBest best total seq) r h
        have hub := updateBest_fst_le best total seq
        refine ⟨ha, hs, le_trans hub.1 hble, le_trans hub.2 hble, ?_, ?_⟩
        · rcases hsound with heq | ⟨is, hleg, hd, hn⟩
          · rcases updateBest_cases best total seq with hcase | hcase
            · exact Or.inl (by rw [heq, hcase])
            · refine Or.inr ⟨[], rfl, ?_, ?_⟩
              · rw [heq, hcase]; simp [seqDamage]
              · rw [heq, hcase]; simp [seqNames]
          · exact Or.inr ⟨is, hleg, hd, hn⟩
        · intro is hleg
          cases is with
          | nil =>
              simpa [seqDamage] using le_trans hub.2 hble
          | cons i is' =>
              rw [legalFromB_cons] at hleg
              obtain ⟨hin, hca, hleg'⟩ := hleg
              have := hper i (List.mem_range.mpr hin) hca is' hleg'
              rw [seqDamage_cons]
              linarith [this]
      refine ⟨hdfs, ?_⟩
      intro l
      induction l with
      | nil =>
          intro hl cur total avail seq best r h
          simp only [runSteps, Option.some.injEq] at h
          refine ⟨(congrArg (fun a => a.2.1) h).symm, (congrArg (fun a => a.2.2) h).symm,
            le_of_eq (congrArg (fun a => a.1.1) h), Or.inl (congrArg Prod.fst h).symm, ?_⟩
          intro i hi
          cases hi
      | cons i rest ihl =>
          intro hl cur total avail seq best r h
          simp only [runSteps] at h
          cases hca : castAllowed skills tl cur avail i with
          | false =>
              rw [dfsStep_of_skip _ hca] at h
              obtain ⟨ha, hs, hble, hsound, hper⟩ :=
                ihl (fun j hj => hl j (List.mem_cons_of_mem _ hj)) cur total avail seq best r h
              refine ⟨ha, hs, hble, hsound, ?_⟩
              intro j hj hcaj is' hleg'
              rcases List.mem_cons.mp hj with rfl | hj'
              · rw [hca] at hcaj; cases hcaj
              · exact hper j hj' hcaj is' hleg'
          | true =>
              rw [dfsStep_of_allowed _ hca] at h
              cases hchild : dfs skills effRecast tl (fuel + 1) (castEndOf skills cur avail i)
                  (total + (skills.getD i default).damage)
                  (availAfterCast skills effRecast cur avail i)
                  (seq ++ [(skills.getD i default).skillName]) best with
              | none => rw [hchild] at h; cases h
              | some acc2 =>
                  obtain ⟨b2, a2, s2⟩ := acc2
                  obtain ⟨ha2, hs2, hb2, htot2, hsound2, hcomp2⟩ := hdfs _ _ _ _ _ _ hchild
                  have ha2' : a2 = availAfterCast skills effRecast cur avail i := ha2
                  have hs2' : s2 = seq ++ [(skills.getD i default).skillName] := hs2
                  subst ha2' hs2'
                  rw [hchild] at h
                  dsimp only at h
                  rw [availAfterCast_undo, List.dropLast_concat] at h
                  have hb2' : best.1 ≤ b2.1 := hb2
                  have hsound2' : b2 = best ∨ ∃ is',
                      legalFromB skills effRecast tl (castEndOf skills cur avail i)
                        (availAfterCast skills effRecast cur avail i) is' = true
                      ∧ b2.1 = total + (skills.getD i default).damage + seqDamage skills is'
                      ∧ b2.2 = (seq ++ [(skills.getD i default).skillName])
                          ++ seqNames skills is' := hsound2
                  have hcomp2' : ∀ is', legalFromB skills effRecast tl
                      (castEndOf skills cur avail i)
                      (availAfterCast skills effRecast cur avail i) is' = true →
                      total + (skills.getD i default).damage + seqDamage skills is' ≤ b2.1 :=
                    hcomp2
                  obtain ⟨ha, hs, hble, hsound, hper⟩ :=
                    ihl (fun j hj => hl j (List.mem_cons_of_mem _ hj)) cur total avail seq b2 r h
                  refine ⟨ha, hs, le_trans hb2' hble, ?_, ?_⟩
                  · rcases hsound with heq | hfresh
                    · rcases hsound2' with heq2 | ⟨is', hleg', hd', hn'⟩
                      · exact Or.inl (heq.trans heq2)
                      · refine Or.inr ⟨i :: is', legalFromB_cons.mpr
                          ⟨hl i (List.mem_cons_self _ _), hca, hleg'⟩, ?_, ?_⟩
                        · rw [heq]
                          show b2.1 = total + seqDamage skills (i :: is')
                          rw [hd', seqDamage_cons]
                          ring
                        · rw [heq]
                          show b2.2 = seq ++ seqNames skills (i :: is')
                          rw [hn', seqNames_cons, List.append_assoc]
                          rfl
                    · exact Or.inr hfresh
                  · intro j hj hcaj is' hleg'
                    rcases List.mem_cons.mp hj with rfl | hj'
                    · exact le_trans (hcomp2' is' hleg') hble
                    · exact hper j hj' hcaj is' hleg'

/-- Fuel monotonicity of `dfs`: a finished traversal is unaffected by
extra fuel. -/
def DfsMono (skills : List Skill) (effRecast : List ℚ) (tl : ℚ) (fuel : ℕ) : Prop :=
  ∀ cur total avail seq best r,
    dfs skills effRecast tl fuel cur total avail seq best = some r →
    dfs skills effRecast tl (fuel + 1) cur total avail seq best = some r

/-- Fuel monotonicity of the loop of one `dfs` node. -/
def RunMono (skills : List Skill) (effRecast : List ℚ) (tl : ℚ) (fuel : ℕ) : Prop :=
  ∀ l cur total avail seq best r,
    runSteps
        (dfsStep skills effRecast tl
          (fun c t a s b => dfs skills effRecast tl fuel c t a s b) cur total)
        l (best, avail, seq) = some r →
    runSteps
        (dfsStep skills effRecast tl
          (fun c t a s b => dfs skills effRecast tl (fuel + 1) c t a s b) cur total)
        l (best, avail, seq) = some r

theorem dfs_mono (skills : List Skill) (effRecast : List ℚ) (tl : ℚ) :
    ∀ fuel, DfsMono skills effRecast tl fuel ∧ RunMono skills effRecast tl fuel := by
  intro fuel
  induction fuel with
  | zero =>
      constructor
      · intro cur total avail seq best r h
        simp [dfs] at h
      · intro l
        induction l with
        | nil => intro cur total avail seq best r h; exact h
        | cons i rest ihl =>
            intro cur total avail seq best r h
            simp only [runSteps] at h ⊢
            cases hca : castAllowed skills tl cur avail i with
            | false =>
                rw [dfsStep_of_skip _ hca] at h ⊢
                exact ihl cur total avail seq best r h
            | true =>
                rw [dfsStep_of_allowed _ hca] at h
                have hnone : dfs skills effRecast tl 0 (castEndOf skills cur avail i)
                    (total + (skills.getD i default).damage)
                    (availAfterCast skills effRecast cur avail i)
                    (seq ++ [(skills.getD i default).skillName]) best = none := by
                  simp [dfs]
                rw [hnone] at h
                cases h
  | succ fuel ih =>
      have hdfs : DfsMono skills effRecast tl (fuel + 1) := by
        intro cur total avail seq best r h
        rw [dfs] at h ⊢
        exact ih.2 (List.range skills.length) cur total avail seq
          (updateBest best total seq) r h
      refine ⟨hdfs, ?_⟩
      intro l
      induction l with
      | nil => intro cur total avail seq best r h; exact h
      | cons i rest ihl =>
          intro cur total avail seq best r h
          simp only [runSteps] at h ⊢
          cases hca : castAllowed skills tl cur avail i with
          | false =>
              rw [dfsStep_of_skip _ hca] at h ⊢
              exact ihl cur total avail seq best r h
          | true =>
              rw [dfsStep_of_allowed _ hca] at h ⊢
              cases hchild : dfs skills effRecast tl (fuel + 1) (castEndOf skills cur avail i)
                  (total + (skills.getD i default).damage)
                  (availAfterCast skills effRecast cur avail i)
                  (seq ++ [(skills.getD i default).skillName]) best with
              | none => rw [hchild] at h; cases h
              | some acc2 =>
                  obtain ⟨b2, a2, s2⟩ := acc2
                  rw [hchild] at h
                  rw [hdfs _ _ _ _ _ _ hchild]
                  dsimp only at h ⊢
                  exact ihl cur total _ _ b2 r h

theorem dfs_mono_le (skills : List Skill) (effRecast : List ℚ) (tl : ℚ)
    {fuel fuel' : ℕ} (hle : fuel ≤ fuel')
    {cur total : ℚ} {avail : List ℚ} {seq : List String} {best : Best} {r : DfsAcc}
    (h : dfs skills effRecast tl fuel cur total avail seq best = some r) :
    dfs skills effRecast tl fuel' cur total avail seq best = some r := by
  induction hle with
  | refl => exact h
  | step hle ih => exact (dfs_mono skills effRecast tl _).1 _ _ _ _ _ _ ih

theorem dfs_fuel_agnostic (skills : List Skill) (effRecast : List ℚ) (tl : ℚ)
    {fuel₁ fuel₂ : ℕ} {cur total : ℚ} {avail : List ℚ} {seq : List String}
    {best : Best} {r₁ r₂ : DfsAcc}
    (h₁ : dfs skills effRecast tl fuel₁ cur total avail seq best = some r₁)
    (h₂ : dfs skills effRecast tl fuel₂ cur total avail seq best = some r₂) :
    r₁ = r₂ := by
  rcases le_total fuel₁ fuel₂ with hle | hle
  · have h := dfs_mono_le skills effRecast tl hle h₁
    rw [h] at h₂
    exact Option.some_injective _ h₂
  · have h := dfs_mono_le skills effRecast tl hle h₂
    rw [h] at h₁
    exact (Option.some_injective _ h₁).symm

/-! ### Termination of the exhaustive search -/

theorem runSteps_total (skills : List Skill) (effRecast : List ℚ) (tl : ℚ)
    {d : ℚ} (hd : 0 < d) (hct : ∀ s ∈ skills, d ≤ s.castTimeS) :
    ∀ (fuel : ℕ) (l : List ℕ), (∀ i ∈ l, i < skills.length) →
      ∀ (cur total : ℚ) (avail : List ℚ) (seq : List String) (best : Best),
        tl < cur + (fuel : ℚ) * d →
        ∃ r, runSteps
            (dfsStep skills effRecast tl
              (fun c t a s b => dfs skills effRecast tl fuel c t a s b) cur total)
            l (best, avail, seq) = some r := by
  intro fuel
  induction fuel with
  | zero =>
      intro l hl
      induction l with
      | nil => intro cur total avail seq best hcur; exact ⟨_, rfl⟩
      | cons i rest ihl =>
          intro cur total avail seq best hcur
          have hcur' : tl < cur := by
            push_cast at hcur
            linarith
          have hiskill : d ≤ (skills.getD i default).castTimeS := by
            have hi := hl i (List.mem_cons_self _ _)
            rw [List.getD_eq_getElem _ _ hi]
            exact hct _ (List.getElem_mem hi)
          have hce : tl < castEndOf skills cur avail i := by
            have h1 : cur ≤ max cur (earliestStartOf avail i) := le_max_left _ _
            rw [castEndOf]
            linarith
          have hca : castAllowed skills tl cur avail i = false := by
            simp [castAllowed, tsCastEndExceeds, hce]
          obtain ⟨r, hr⟩ := ihl (fun j hj => hl j (List.mem_cons_of_mem _ hj))
            cur total avail seq best hcur
          refine ⟨r, ?_⟩
          simp only [runSteps]
          rw [dfsStep_of_skip _ hca]
          exact hr
  | succ fuel ih =>
      intro l hl
      induction l with
      | nil => intro cur total avail seq best hcur; exact ⟨_, rfl⟩
      | cons i rest ihl =>
          intro cur total avail seq best hcur
          cases hca : castAllowed skills tl cur avail i with
          | false =>
              obtain ⟨r, hr⟩ := ihl (fun j hj => hl j (List.mem_cons_of_mem _ hj))
                cur total avail seq best hcur
              refine ⟨r, ?_⟩
              simp only [runSteps]
              rw [dfsStep_of_skip _ hca]
              exact hr
          | true =>
              have hiskill : d ≤ (skills.getD i default).castTimeS := by
                have hi := hl i (List.mem_cons_self _ _)
                rw [List.getD_eq_getElem _ _ hi]
                exact hct _ (List.getElem_mem hi)
              have hstep : cur + d ≤ castEndOf skills cur avail i := by
                have h1 : cur ≤ max cur (earliestStartOf avail i) := le_max_left _ _
                rw [castEndOf]
                linarith
              have hcond : tl < castEndOf skills cur avail i + (fuel : ℚ) * d := by
                have hcast : ((fuel + 1 : ℕ) : ℚ) * d = (fuel : ℚ) * d + d := by
                  push_cast
                  ring
                rw [hcast] at hcur
                linarith
              obtain ⟨acc2, hacc2⟩ := ih (List.range skills.length)
                (fun j hj => List.mem_range.mp hj)
                (castEndOf skills cur avail i) (total + (skills.getD i default).damage)
                (availAfterCast skills effRecast cur avail i)
                (seq ++ [(skills.getD i default).skillName])
                (updateBest best (total + (skills.getD i default).damage)
                  (seq ++ [(skills.getD i default).skillName]))
                hcond
              have hchild : dfs skills effRecast tl (fuel + 1) (castEndOf skills cur avail i)
                  (total + (skills.getD i default).damage)
                  (availAfterCast skills effRecast cur avail i)
                  (seq ++ [(skills.getD i default).skillName]) best = some acc2 := by
                rw [dfs]
                exact hacc2
              obtain ⟨b2, a2, s2⟩ := acc2
              obtain ⟨r, hr⟩ := ihl (fun j hj => hl j (List.mem_cons_of_mem _ hj))
                cur total (a2.set i (avail.getD i 0)) s2.dropLast b2 hcur
              refine ⟨r, ?_⟩
              simp only [runSteps]
              rw [dfsStep_of_allowed _ hca, hchild]
              exact hr

/-- With every cast duration at least `d > 0`, the exhaustive search
finishes once the fuel covers the time window. -/
theorem dfs_total (skills : List Skill) (effRecast : List ℚ) (tl : ℚ)
    {d : ℚ} (hd : 0 < d) (hct : ∀ s ∈ skills, d ≤ s.castTimeS)
    (fuel : ℕ) (cur total : ℚ) (avail : List ℚ) (seq : List String) (best : Best)
    (hcur : tl < cur + (fuel : ℚ) * d) :
    ∃ r, dfs skills effRecast tl (fuel + 1) cur total avail seq best = some r := by
  obtain ⟨r, hr⟩ := runSteps_total skills effRecast tl hd hct fuel
    (List.range skills.length) (fun j hj => List.mem_range.mp hj)
    cur total avail seq (updateBest best total seq) hcur
  refine ⟨r, ?_⟩
  rw [dfs]
  exact hr

theorem foldr_min_castTime (skills : List Skill)
    (hpos : ∀ s ∈ skills, 0 < s.castTimeS) :
    0 < (skills.map Skill.castTimeS).foldr min 1
    ∧ ∀ s ∈ skills, (skills.map Skill.castTimeS).foldr min 1 ≤ s.castTimeS := by
  induction skills with
  | nil => simp
  | cons a rest ih =>
      obtain ⟨ih1, ih2⟩ := ih fun s hs => hpos s (List.mem_cons_of_mem _ hs)
      constructor
      · simp only [List.map_cons, List.foldr_cons]
        exact lt_min (hpos a (List.mem_cons_self _ _)) ih1
      · intro s hs
        rcases List.mem_cons.mp hs with rfl | hs'
        · simp only [List.map_cons, List.foldr_cons]
          exact min_le_left _ _
        · simp only [List.map_cons, List.foldr_cons]
          exact le_trans (min_le_right _ _) (ih2 s hs')

/-- With a zero-cost action (cast duration 0, cooldown 0) the exhaustive
recursion never finishes: every fuel is exhausted.  This is the
`castDuration = 0` degenerate case the data model permits. -/
theorem dfs_zero_cast_loops :
    ∀ (fuel : ℕ) (cur a total : ℚ) (seq : List String) (best : Best),
      cur ≤ 1 → a ≤ 1 →
      dfs [⟨"Z", 0, 0, 1, [0]⟩] [0] 1 fuel cur total [a] seq best = none := by
  intro fuel
  induction fuel with
  | zero => intro cur a total seq best hcur ha; simp [dfs]
  | succ fuel ih =>
      intro cur a total seq best hcur ha
      rw [dfs]
      have hlen : List.range ([⟨"Z", 0, 0, 1, [0]⟩] : List Skill).length = [0] := rfl
      rw [hlen]
      simp only [runSteps]
      have h1 : ¬ (1 : ℚ) < a := not_lt.mpr ha
      have h2 : ¬ (1 : ℚ) < max cur a := not_lt.mpr (max_le hcur ha)
      have hca : castAllowed [⟨"Z", 0, 0, 1, [0]⟩] 1 cur [a] 0 = true := by
        simp [castAllowed, tsAvailExceeds, tsCastEndExceeds, castEndOf, earliestStartOf,
          h1, h2]
      rw [dfsStep_of_allowed _ hca]
      have hce : castEndOf [⟨"Z", 0, 0, 1, [0]⟩] cur [a] 0 = max cur a := by
        simp [castEndOf, earliestStartOf]
      have hav : availAfterCast [⟨"Z", 0, 0, 1, [0]⟩] [0] cur [a] 0 = [max cur a] := by
        simp [availAfterCast, hce]
      rw [hce, hav]
      rw [ih (max cur a) (max cur a) _ _ _ (max_le hcur ha) (max_le hcur ha)]

/-- C10: with strictly positive cast durations (and non-negative
effective cooldowns) the exhaustive recursion terminates on every finite
time limit — some fuel completes the traversal, because each recursive
call advances `currentTime` by at least the smallest cast duration while
`currentTime` stays bounded by `timeLimit`.  The guarantee is lost when
an action has `castDuration = 0`, which the data model permits: on the
concrete one-action roster with cast duration 0 and cooldown 0 the
traversal finishes under no fuel at all (the recursion never returns). -/
theorem C10_exhaustive_termination (skills : List Skill) (gearCombo : List ℚ)
    (timeLimit : ℚ)
    (hpos : ∀ s ∈ skills, 0 < s.castTimeS)
    (hcool : ∀ x ∈ effectiveRecast skills gearCombo, 0 ≤ x) :
    (∃ fuel r, findBestDamageSchedule skills gearCombo timeLimit fuel = some r)
    ∧ ∀ fuel, findBestDamageSchedule [⟨"Z", 0, 0, 1, [0]⟩] [0] 1 fuel = none := by
  constructor
  · obtain ⟨hd, hbound⟩ := foldr_min_castTime skills hpos
    obtain ⟨N, hN⟩ := exists_nat_gt (timeLimit / (skills.map Skill.castTimeS).foldr min 1)
    have hlt : timeLimit < 0 + (N : ℚ) * (skills.map Skill.castTimeS).foldr min 1 := by
      rw [zero_add]
      exact (div_lt_iff hd).mp hN
    obtain ⟨r, hr⟩ := dfs_total skills (effectiveRecast skills gearCombo) timeLimit hd
      hbound N 0 0 (List.replicate skills.length 0) [] (0, []) hlt
    refine ⟨N + 1, ⟨r.1.1, r.1.2⟩, ?_⟩
    rw [findBestDamageSchedule, hr]
    rfl
  · intro fuel
    have heff : effectiveRecast [⟨"Z", 0, 0, 1, [0]⟩] [0] = [0] := by
      with_unfolding_all rfl
    have hrep : List.replicate ([⟨"Z", 0, 0, 1, [0]⟩] : List Skill).length (0 : ℚ) = [0] :=
      rfl
    rw [findBestDamageSchedule, heff, hrep,
      dfs_zero_cast_loops fuel 0 0 0 [] (0, []) (by norm_num) (by norm_num)]
    rfl

/-- Witness for C10 at a concrete roster with positive cast durations. -/
theorem C10_exhaustive_termination_witness :
    (∀ s ∈ ([⟨"A", 1, 5, 10, [0]⟩] : List Skill), 0 < s.castTimeS)
    ∧ (∀ x ∈ effectiveRecast [⟨"A", 1, 5, 10, [0]⟩] [0], 0 ≤ x)
    ∧ ((∃ fuel r, findBestDamageSchedule [⟨"A", 1, 5, 10, [0]⟩] [0] 11 fuel = some r)
      ∧ ∀ fuel, findBestDamageSchedule [⟨"Z", 0, 0, 1, [0]⟩] [0] 1 fuel = none) :=
  ⟨by decide, by with_unfolding_all decide,
    C10_exhaustive_termination [⟨"A", 1, 5, 10, [0]⟩] [0] 11 (by decide)
      (by with_unfolding_all decide)⟩

/-- Under non-negative cast durations, the specification's notion of a
legal cast sequence (every cast ends by the time limit) coincides with
the code's loop guards (which additionally skip a skill whose
availability time exceeds the limit). -/
theorem legalClaimB_eq_legalFromB (skills : List Skill) (effRecast : List ℚ) (tl : ℚ)
    (hct : ∀ s ∈ skills, 0 ≤ s.castTimeS) :
    ∀ (is : List ℕ) (cur : ℚ) (avail : List ℚ),
      legalClaimB skills effRecast tl cur avail is
        = legalFromB skills effRecast tl cur avail is := by
  intro is
  induction is with
  | nil => intro cur avail; rfl
  | cons i is' ih =>
      intro cur avail
      by_cases hi : i < skills.length
      · have hiff : decide (castEndOf skills cur avail i ≤ tl)
            = castAllowed skills tl cur avail i := by
          by_cases hce : castEndOf skills cur avail i ≤ tl
          · have hct' : 0 ≤ (skills.getD i default).castTimeS := by
              rw [List.getD_eq_getElem _ _ hi]
              exact hct _ (List.getElem_mem hi)
            have he : earliestStartOf avail i ≤ tl := by
              have h1 : earliestStartOf avail i ≤ max cur (earliestStartOf avail i) :=
                le_max_right _ _
              rw [castEndOf] at hce
              linarith
            simp [castAllowed, tsAvailExceeds, tsCastEndExceeds, hce,
              not_lt.mpr hce, not_lt.mpr he]
          · simp [castAllowed, tsCastEndExceeds, hce, not_le.mp hce]
        simp [legalClaimB, legalFromB, hi, hiff, ih]
      · simp [legalClaimB, legalFromB, hi]

/-- C1: the exhaustive strategy is exact.  When the traversal finishes
(`= some r`) on a roster of non-negative cast durations, the returned
`totalDamage` is attained by a legal cast sequence (each cast starting
at `max(currentTime, nextAvailableTime[i])`, ending by `timeLimit`, with
`nextAvailableTime[i]` updated to `castEnd + effectiveRecast i`) and
dominates the damage of every legal cast sequence — it is the maximum
over all legal cast sequences of the sum of the cast actions' damage. -/
theorem C1_exhaustiveSearch_exact (skills : List Skill) (gearCombo : List ℚ)
    (timeLimit : ℚ) (fuel : ℕ) (r : ScheduleResult)
    (hct : ∀ s ∈ skills, 0 ≤ s.castTimeS)
    (hrun : findBestDamageSchedule skills gearCombo timeLimit fuel = some r) :
    (∃ is, legalClaimB skills (effectiveRecast skills gearCombo) timeLimit 0
        (List.replicate skills.length 0) is = true
      ∧ r.totalDamage = seqDamage skills is)
    ∧ ∀ is, legalClaimB skills (effectiveRecast skills gearCombo) timeLimit 0
        (List.replicate skills.length 0) is = true →
      seqDamage skills is ≤ r.totalDamage := by
  rw [findBestDamageSchedule] at hrun
  obtain ⟨acc, hacc, hmap⟩ := Option.map_eq_some'.mp hrun
  obtain ⟨ha, hs, hble, htot, hsound, hcomp⟩ :=
    (dfs_spec skills (effectiveRecast skills gearCombo) timeLimit fuel).1 _ _ _ _ _ _ hacc
  have heq := legalClaimB_eq_legalFromB skills (effectiveRecast skills gearCombo)
    timeLimit hct
  have hr1 : r.totalDamage = acc.1.1 := by rw [← hmap]
  constructor
  · rcases hsound with hinit | ⟨is, hleg, hd, hn⟩
    · refine ⟨[], rfl, ?_⟩
      rw [hr1, hinit]
      simp [seqDamage]
    · refine ⟨is, ?_, ?_⟩
      · rw [heq]
        exact hleg
      · rw [hr1, hd]
        simp
  · intro is hleg
    rw [heq] at hleg
    have := hcomp is hleg
    rw [hr1]
    linarith

/-- Witness for C1 on the one-action roster of Scenario A. -/
theorem C1_exhaustiveSearch_exact_witness :
    (∀ s ∈ ([⟨"A", 1, 5, 10, [0]⟩] : List Skill), 0 ≤ s.castTimeS)
    ∧ findBestDamageSchedule [⟨"A", 1, 5, 10, [0]⟩] [0] 11 4 = some ⟨20, ["A", "A"]⟩
    ∧ ((∃ is, legalClaimB [⟨"A", 1, 5, 10, [0]⟩]
          (effectiveRecast [⟨"A", 1, 5, 10, [0]⟩] [0]) 11 0
          (List.replicate ([⟨"A", 1, 5, 10, [0]⟩] : List Skill).length 0) is = true
        ∧ (⟨20, ["A", "A"]⟩ : ScheduleResult).totalDamage = seqDamage [⟨"A", 1, 5, 10, [0]⟩] is)
      ∧ ∀ is, legalClaimB [⟨"A", 1, 5, 10, [0]⟩]
          (effectiveRecast [⟨"A", 1, 5, 10, [0]⟩] [0]) 11 0
          (List.replicate ([⟨"A", 1, 5, 10, [0]⟩] : List Skill).length 0) is = true →
        seqDamage [⟨"A", 1, 5, 10, [0]⟩] is ≤ (⟨20, ["A", "A"]⟩ : ScheduleResult).totalDamage) :=
  ⟨by decide, by with_unfolding_all rfl,
    C1_exhaustiveSearch_exact [⟨"A", 1, 5, 10, [0]⟩] [0] 11 4 ⟨20, ["A", "A"]⟩
      (by decide) (by with_unfolding_all rfl)⟩

/-- C8: Scenario A.  On the one-action roster with cast duration 1,
cooldown 5, damage 10, sole modifier 0 and time limit 11, the exhaustive
search returns damage 20 with exactly two casts; replaying: the first
cast ends at 1 and makes the action next available at 6, the second cast
starts at 6, ends at 7 and makes it next available at 12 > 11, so the
two-cast sequence is legal and no three-cast sequence is. -/
theorem C8_scenarioA :
    findBestDamageSchedule [⟨"Spell", 1, 5, 10, [0]⟩] [0] 11 4
        = some ⟨20, ["Spell", "Spell"]⟩
    ∧ castEndOf [⟨"Spell", 1, 5, 10, [0]⟩] 0 [0] 0 = 1
    ∧ availAfterCast [⟨"Spell", 1, 5, 10, [0]⟩]
        (effectiveRecast [⟨"Spell", 1, 5, 10, [0]⟩] [0]) 0 [0] 0 = [6]
    ∧ castEndOf [⟨"Spell", 1, 5, 10, [0]⟩] 1 [6] 0 = 7
    ∧ availAfterCast [⟨"Spell", 1, 5, 10, [0]⟩]
        (effectiveRecast [⟨"Spell", 1, 5, 10, [0]⟩] [0]) 1 [6] 0 = [12]
    ∧ legalFromB [⟨"Spell", 1, 5, 10, [0]⟩]
        (effectiveRecast [⟨"Spell", 1, 5, 10, [0]⟩] [0]) 11 0 [0] [0, 0] = true
    ∧ legalFromB [⟨"Spell", 1, 5, 10, [0]⟩]
        (effectiveRecast [⟨"Spell", 1, 5, 10, [0]⟩] [0]) 11 0 [0] [0, 0, 0] = false := by
  refine ⟨?_, ?_, ?_, ?_, ?_, ?_, ?_⟩ <;> with_unfolding_all rfl

/-! ### Lemmas about the bounded-frontier search -/

theorem seqDamage_snoc (skills : List Skill) (is : List ℕ) (i : ℕ) :
    seqDamage skills (is ++ [i]) = seqDamage skills is + (skills.getD i default).damage := by
  simp [seqDamage]

theorem seqNames_snoc (skills : List Skill) (is : List ℕ) (i : ℕ) :
    seqNames skills (is ++ [i])
      = seqNames skills is ++ [(skills.getD i default).skillName] := by
  simp [seqNames]

theorem replayState_snoc (skills : List Skill) (effRecast : List ℚ) :
    ∀ (is : List ℕ) (cur : ℚ) (avail : List ℚ) (i : ℕ),
      replayState skills effRecast cur avail (is ++ [i])
        = (castEndOf skills (replayState skills effRecast cur avail is).1
              (replayState skills effRecast cur avail is).2 i,
            availAfterCast skills effRecast (replayState skills effRecast cur avail is).1
              (replayState skills effRecast cur avail is).2 i) := by
  intro is
  induction is with
  | nil => intro cur avail i; simp [replayState]
  | cons j js ih => intro cur avail i; simp [replayState, ih]

theorem legalFromB_snoc (skills : List Skill) (effRecast : List ℚ) (tl : ℚ) :
    ∀ (is : List ℕ) (cur : ℚ) (avail : List ℚ) (i : ℕ),
      legalFromB skills effRecast tl cur avail (is ++ [i]) = true ↔
        legalFromB skills effRecast tl cur avail is = true
        ∧ i < skills.length
        ∧ castAllowed skills tl (replayState skills effRecast cur avail is).1
            (replayState skills effRecast cur avail is).2 i = true := by
  intro is
  induction is with
  | nil =>
      intro cur avail i
      simp [legalFromB, replayState, legalFromB_cons]
  | cons j js ih =>
      intro cur avail i
      rw [List.cons_append, legalFromB_cons, legalFromB_cons, ih]
      simp [replayState, and_assoc]

/-- A bounded-frontier state whose fields are the replay of a legal cast
sequence from the root. -/
def GoodBState (skills : List Skill) (effRecast : List ℚ) (tl : ℚ) (s : BState) : Prop :=
  ∃ is, legalFromB skills effRecast tl 0 (List.replicate skills.length 0) is = true
    ∧ (s.currentTime, s.nextAvail)
        = replayState skills effRecast 0 (List.replicate skills.length 0) is
    ∧ s.damageSoFar = seqDamage skills is
    ∧ s.castSequence = seqNames skills is

/-- A best pair realised by a legal cast sequence from the root. -/
def GoodBest (skills : List Skill) (effRecast : List ℚ) (tl : ℚ) (b : Best) : Prop :=
  ∃ is, legalFromB skills effRecast tl 0 (List.replicate skills.length 0) is = true
    ∧ b.1 = seqDamage skills is ∧ b.2 = seqNames skills is

theorem initialBState_good (skills : List Skill) (effRecast : List ℚ) (tl : ℚ) :
    GoodBState skills effRecast tl (initialBState skills) := by
  exact ⟨[], rfl, by simp [initialBState, replayState], by simp [initialBState, seqDamage],
    by simp [initialBState, seqNames]⟩

theorem mkChild_good (skills : List Skill) (effRecast : List ℚ) (tl : ℚ)
    {st : BState} (hst : GoodBState skills effRecast tl st) {i : ℕ}
    (hi : i < skills.length)
    (hca : castAllowed skills tl st.currentTime st.nextAvail i = true) :
    GoodBState skills effRecast tl (mkChild skills effRecast st i) := by
  obtain ⟨is, hleg, hrep, hd, hn⟩ := hst
  have hcur : st.currentTime
      = (replayState skills effRecast 0 (List.replicate skills.length 0) is).1 := by
    rw [← hrep]
  have hav : st.nextAvail
      = (replayState skills effRecast 0 (List.replicate skills.length 0) is).2 := by
    rw [← hrep]
  refine ⟨is ++ [i], ?_, ?_, ?_, ?_⟩
  · rw [legalFromB_snoc]
    exact ⟨hleg, hi, by rw [← hcur, ← hav]; exact hca⟩
  · rw [replayState_snoc, ← hcur, ← hav]
    simp [mkChild]
  · rw [seqDamage_snoc, mkChild, ← hd]
  · rw [seqNames_snoc, mkChild, ← hn]

theorem castAllowed_bf (skills : List Skill) (tl cur : ℚ) (avail : List ℚ) (i : ℕ) :
    castAllowed skills tl cur avail i = true ↔
      bfAvailExceeds tl (avail.getD i 0) = false
      ∧ bfCastEndExceeds tl
          (max cur (avail.getD i 0) + (skills.getD i default).castTimeS) = false := by
  simp [castAllowed, tsAvailExceeds, tsCastEndExceeds, bfAvailExceeds, bfCastEndExceeds,
    castEndOf, earliestStartOf]

/-- Every state in the queue produced by the expansion loop is either an
old queue entry or a guard-passing successor of the expanded state. -/
theorem expand_mem (skills : List Skill) (effRecast : List ℚ) (tl : ℚ) (K : ℕ)
    (st : BState) :
    ∀ (l : List ℕ) (q : List BState) (hs : Heaps) (s : BState),
      s ∈ (expand skills effRecast tl K st l q hs).1 →
      s ∈ q ∨ ∃ i ∈ l, castAllowed skills tl st.currentTime st.nextAvail i = true
        ∧ s = mkChild skills effRecast st i := by
  intro l
  induction l with
  | nil => intro q hs s hsmem; exact Or.inl hsmem
  | cons i rest ih =>
      intro q hs s hsmem
      have hlift : s ∈ q ∨ (∃ j ∈ rest, castAllowed skills tl st.currentTime st.nextAvail j
            = true ∧ s = mkChild skills effRecast st j) →
          s ∈ q ∨ ∃ j ∈ i :: rest, castAllowed skills tl st.currentTime st.nextAvail j
            = true ∧ s = mkChild skills effRecast st j := by
        rintro (h | ⟨j, hj, hcaj, hsj⟩)
        · exact Or.inl h
        · exact Or.inr ⟨j, List.mem_cons_of_mem _ hj, hcaj, hsj⟩
      have hnew : ∀ q' hs', s ∈ (expand skills effRecast tl K st rest
            (q' ++ [mkChild skills effRecast st i]) hs').1 →
          q' = q →
          castAllowed skills tl st.currentTime st.nextAvail i = true →
          s ∈ q ∨ ∃ j ∈ i :: rest, castAllowed skills tl st.currentTime st.nextAvail j
            = true ∧ s = mkChild skills effRecast st j := by
        intro q' hs' hmem hqq hca
        subst hqq
        rcases ih _ _ s hmem with h | ⟨j, hj, hcaj, hsj⟩
        · rcases List.mem_append.mp h with h' | h'
          · exact Or.inl h'
          · exact Or.inr ⟨i, List.mem_cons_self _ _, hca, List.mem_singleton.mp h'⟩
        · exact Or.inr ⟨j, List.mem_cons_of_mem _ hj, hcaj, hsj⟩
      simp only [expand] at hsmem
      split at hsmem
      case isTrue hg1 =>
        exact hlift (ih q hs s hsmem)
      case isFalse hg1 =>
        split at hsmem
        case isTrue hg2 =>
          exact hlift (ih q hs s hsmem)
        case isFalse hg2 =>
          have hca : castAllowed skills tl st.currentTime st.nextAvail i = true :=
            (castAllowed_bf skills tl st.currentTime st.nextAvail i).mpr
              ⟨Bool.eq_false_iff.mpr hg1, Bool.eq_false_iff.mpr hg2⟩
          split at hsmem
          case isTrue hlen => exact hnew _ _ hsmem rfl hca
          case isFalse hlen =>
            split at hsmem
            case h_1 worst hhead =>
              split at hsmem
              case isTrue hlt => exact hnew _ _ hsmem rfl hca
              case isFalse hlt => exact hlift (ih q hs s hsmem)
            case h_2 hhead => exact hlift (ih q hs s hsmem)

theorem pqInsert_length (s : BState) : ∀ h : List BState, (pqInsert s h).length = h.length + 1 := by
  intro h
  induction h with
  | nil => rfl
  | cons t rest ih =>
      by_cases hlt : s.damageSoFar < t.damageSoFar
      · simp [pqInsert, hlt]
      · simp [pqInsert, hlt, ih]

theorem heapsSize_cons (p : ℚ × List BState) (rest : Heaps) :
    heapsSize (p :: rest) = p.2.length + heapsSize rest := by
  simp [heapsSize]

theorem heapsGet_length_le (cp : ℚ) : ∀ hs : Heaps, (heapsGet hs cp).length ≤ heapsSize hs := by
  intro hs
  induction hs with
  | nil => simp [heapsGet, heapsSize]
  | cons p rest ih =>
      rw [heapsGet, heapsSize_cons]
      by_cases hp : p.1 = cp
      · simp [hp]
      · simp only [hp, if_false]
        exact le_trans ih (Nat.le_add_left _ _)

theorem heapsSize_set_insert (cp : ℚ) (s : BState) :
    ∀ hs : Heaps, heapsSize (heapsSet cp (pqInsert s (heapsGet hs cp)) hs)
      = heapsSize hs + 1 := by
  intro hs
  induction hs with
  | nil => simp [heapsSet, heapsSize, heapsGet, pqInsert]
  | cons p rest ih =>
      by_cases hp : p.1 = cp
      · rw [heapsGet, if_pos hp, heapsSet, if_pos hp, heapsSize_cons, heapsSize_cons,
          pqInsert_length]
        omega
      · rw [heapsGet, if_neg hp, heapsSet, if_neg hp, heapsSize_cons, heapsSize_cons, ih]
        omega


/-- While the retention capacity is never reached, the expansion loop
enqueues every guard-passing successor, keeps every old queue entry, and
grows the retention structure by at most one state per skill. -/
theorem expand_nocap (skills : List Skill) (effRecast : List ℚ) (tl : ℚ) (K : ℕ)
    (st : BState) :
    ∀ (l : List ℕ) (q : List BState) (hs : Heaps),
      heapsSize hs + l.length ≤ K →
      heapsSize (expand skills effRecast tl K st l q hs).2 ≤ heapsSize hs + l.length
      ∧ (∀ s ∈ q, s ∈ (expand skills effRecast tl K st l q hs).1)
      ∧ ∀ i ∈ l, castAllowed skills tl st.currentTime st.nextAvail i = true →
          mkChild skills effRecast st i ∈ (expand skills effRecast tl K st l q hs).1 := by
  intro l
  induction l with
  | nil =>
      intro q hs hcap
      refine ⟨by simp [expand], fun s hsq => hsq, fun i hi => absurd hi (List.not_mem_nil i)⟩
  | cons i rest ih =>
      intro q hs hcap
      rw [List.length_cons] at hcap
      simp only [expand]
      split
      case isTrue hg1 =>
        obtain ⟨h1, h2, h3⟩ := ih q hs (by omega)
        refine ⟨le_trans h1 (by simp), h2, ?_⟩
        intro j hj hcaj
        rcases List.mem_cons.mp hj with rfl | hj'
        · exact absurd ((castAllowed_bf skills tl st.currentTime st.nextAvail j).mp hcaj).1
            (by rw [hg1]; simp)
        · exact h3 j hj' hcaj
      case isFalse hg1 =>
        split
        case isTrue hg2 =>
          obtain ⟨h1, h2, h3⟩ := ih q hs (by omega)
          refine ⟨le_trans h1 (by simp), h2, ?_⟩
          intro j hj hcaj
          rcases List.mem_cons.mp hj with rfl | hj'
          · exact absurd ((castAllowed_bf skills tl st.currentTime st.nextAvail j).mp hcaj).2
              (by rw [hg2]; simp)
          · exact h3 j hj' hcaj
        case isFalse hg2 =>
          split
          case isTrue hlen =>
            have hsize := heapsSize_set_insert
              (checkpointOf (max st.currentTime (st.nextAvail.getD i 0)
                + (skills.getD i default).castTimeS))
              (mkChild skills effRecast st i) hs
            obtain ⟨h1, h2, h3⟩ := ih (q ++ [mkChild skills effRecast st i]) _
              (by rw [hsize]; omega)
            refine ⟨by rw [hsize] at h1; simp only [List.length_cons]; omega, ?_, ?_⟩
            · intro s hsq
              exact h2 s (List.mem_append_left _ hsq)
            · intro j hj hcaj
              rcases List.mem_cons.mp hj with rfl | hj'
              · exact h2 _ (List.mem_append_right _ (List.mem_singleton.mpr rfl))
              · exact h3 j hj' hcaj
          case isFalse hlen =>
            exact absurd (lt_of_le_of_lt
              (heapsGet_length_le (checkpointOf (max st.currentTime (st.nextAvail.getD i 0)
                + (skills.getD i default).castTimeS)) hs) (by omega)) hlen

/-- Soundness of the bounded-frontier loop: if every queued state is the
replay of a legal sequence and the running best is realised by a legal
sequence, so is the returned best. -/
theorem bfsLoop_sound (skills : List Skill) (effRecast : List ℚ) (tl : ℚ) (K : ℕ) :
    ∀ (fuel : ℕ) (queue : List BState) (hs : Heaps) (best r : Best),
      (∀ s ∈ queue, GoodBState skills effRecast tl s) →
      GoodBest skills effRecast tl best →
      bfsLoop skills effRecast tl K fuel queue hs best = some r →
      GoodBest skills effRecast tl r := by
  intro fuel
  induction fuel with
  | zero =>
      intro queue hs best r hq hb h
      cases queue with
      | nil =>
          simp only [bfsLoop, Option.some.injEq] at h
          rwa [← h]
      | cons st rest => simp [bfsLoop] at h
  | succ fuel ih =>
      intro queue hs best r hq hb h
      cases queue with
      | nil =>
          simp only [bfsLoop, Option.some.injEq] at h
          rwa [← h]
      | cons st rest =>
          simp only [bfsLoop] at h
          have hst := hq st (List.mem_cons_self _ _)
          have hbest1 : GoodBest skills effRecast tl
              (if best.1 < st.damageSoFar then (st.damageSoFar, st.castSequence)
               else best) := by
            by_cases hlt : best.1 < st.damageSoFar
            · obtain ⟨is, hleg, hrep, hd, hn⟩ := hst
              refine ⟨is, hleg, ?_, ?_⟩
              · rw [if_pos hlt]
                exact hd
              · rw [if_pos hlt]
                exact hn
            · simpa [hlt] using hb
          refine ih _ _ _ r ?_ hbest1 h
          intro s hsmem
          rcases expand_mem skills effRecast tl K st (List.range skills.length)
              rest hs s hsmem with hold | ⟨i, hi, hca, rfl⟩
          · exact hq s (List.mem_cons_of_mem _ hold)
          · exact mkChild_good skills effRecast tl hst (List.mem_range.mp hi) hca

/-- Completeness of the bounded-frontier loop under a capacity that its
run can never reach: every legal continuation of every queued state is
dominated by the returned best. -/
theorem bfsLoop_complete (skills : List Skill) (effRecast : List ℚ) (tl : ℚ) (K : ℕ) :
    ∀ (fuel : ℕ) (queue : List BState) (hs : Heaps) (best r : Best),
      heapsSize hs + skills.length * fuel ≤ K →
      bfsLoop skills effRecast tl K fuel queue hs best = some r →
      best.1 ≤ r.1
      ∧ ∀ s ∈ queue, ∀ is,
          legalFromB skills effRecast tl s.currentTime s.nextAvail is = true →
          s.damageSoFar + seqDamage skills is ≤ r.1 := by
  intro fuel
  induction fuel with
  | zero =>
      intro queue hs best r hcap h
      cases queue with
      | nil =>
          simp only [bfsLoop, Option.some.injEq] at h
          exact ⟨le_of_eq (by rw [h]), fun s hs' => absurd hs' (List.not_mem_nil s)⟩
      | cons st rest => simp [bfsLoop] at h
  | succ fuel ih =>
      intro queue hs best r hcap h
      cases queue with
      | nil =>
          simp only [bfsLoop, Option.some.injEq] at h
          exact ⟨le_of_eq (by rw [h]), fun s hs' => absurd hs' (List.not_mem_nil s)⟩
      | cons st rest =>
          simp only [bfsLoop] at h
          rw [Nat.mul_succ] at hcap
          have hcap' : heapsSize hs + skills.length ≤ K := by omega
          obtain ⟨hszexp, hkeep, hchild⟩ := expand_nocap skills effRecast tl K st
            (List.range skills.length) rest hs
            (by rw [List.length_range]; exact hcap')
          rw [List.length_range] at hszexp
          obtain ⟨hble, hall⟩ := ih _ _ _ r (by omega) h
          have hb1 : best.1 ≤ (if best.1 < st.damageSoFar
              then (st.damageSoFar, st.castSequence) else best).1 := by
            by_cases hlt : best.1 < st.damageSoFar
            · simp only [hlt, if_true]
              exact le_of_lt hlt
            · simp [hlt]
          have hst1 : st.damageSoFar ≤ (if best.1 < st.damageSoFar
              then (st.damageSoFar, st.castSequence) else best).1 := by
            by_cases hlt : best.1 < st.damageSoFar
            · simp [hlt]
            · simp only [hlt, if_false]
              exact le_of_not_lt hlt
          refine ⟨le_trans hb1 hble, ?_⟩
          intro s hsmem is hleg
          rcases List.mem_cons.mp hsmem with rfl | hmem
          · cases is with
            | nil =>
                have := le_trans hst1 hble
                simpa [seqDamage] using this
            | cons i is' =>
                rw [legalFromB_cons] at hleg
                obtain ⟨hi, hca, hleg'⟩ := hleg
                have hmem' := hchild i (List.mem_range.mpr hi) hca
                have hgoal := hall _ hmem' is' hleg'
                rw [seqDamage_cons]
                have hdmg : (mkChild skills effRecast s i).damageSoFar
                    = s.damageSoFar + (skills.getD i default).damage := rfl
                rw [hdmg] at hgoal
                linarith
          · exact hall s (hkeep s hmem) is hleg

theorem bfsLoop_mono (skills : List Skill) (effRecast : List ℚ) (tl : ℚ) (K : ℕ) :
    ∀ (fuel : ℕ) (queue : List BState) (hs : Heaps) (best r : Best),
      bfsLoop skills effRecast tl K fuel queue hs best = some r →
      bfsLoop skills effRecast tl K (fuel + 1) queue hs best = some r := by
  intro fuel
  induction fuel with
  | zero =>
      intro queue hs best r h
      cases queue with
      | nil => simpa [bfsLoop] using h
      | cons st rest => simp [bfsLoop] at h
  | succ fuel ih =>
      intro queue hs best r h
      cases queue with
      | nil => simpa [bfsLoop] using h
      | cons st rest =>
          simp only [bfsLoop] at h ⊢
          exact ih _ _ _ _ h

theorem bfsLoop_mono_le (skills : List Skill) (effRecast : List ℚ) (tl : ℚ) (K : ℕ)
    {fuel fuel' : ℕ} (hle : fuel ≤ fuel')
    {queue : List BState} {hs : Heaps} {best r : Best}
    (h : bfsLoop skills effRecast tl K fuel queue hs best = some r) :
    bfsLoop skills effRecast tl K fuel' queue hs best = some r := by
  induction hle with
  | refl => exact h
  | step hle ih => exact bfsLoop_mono skills effRecast tl K _ _ _ _ _ ih

theorem initial_queue_good (skills : List Skill) (effRecast : List ℚ) (tl : ℚ) :
    ∀ s ∈ [initialBState skills], GoodBState skills effRecast tl s := by
  intro s hs
  rw [List.mem_singleton.mp hs]
  exact initialBState_good skills effRecast tl

theorem initial_best_good (skills : List Skill) (effRecast : List ℚ) (tl : ℚ) :
    GoodBest skills effRecast tl (0, []) :=
  ⟨[], rfl, by simp [seqDamage], by simp [seqNames]⟩

/-- C2: for every input and any finite retention capacity `K`, the
exhaustive strategy's damage is at least the bounded-frontier strategy's
damage; and when `K` is large enough that no generated state can ever be
evicted or pruned — here: `K` at least the number of states the run can
generate, `skills.length` per expanded state over `fuelB` expansions —
the two strategies return equal damage. -/
theorem C2_bounded_vs_exhaustive (skills : List Skill) (gearCombo : List ℚ)
    (timeLimit : ℚ) (K fuelD fuelB : ℕ) (rD rB : ScheduleResult)
    (hD : findBestDamageSchedule skills gearCombo timeLimit fuelD = some rD)
    (hB : findBestDamageScheduleBounded skills gearCombo timeLimit K fuelB = some rB) :
    rB.totalDamage ≤ rD.totalDamage
    ∧ (skills.length * fuelB ≤ K → rB.totalDamage = rD.totalDamage) := by
  rw [findBestDamageSchedule] at hD
  obtain ⟨accD, haccD, hmapD⟩ := Option.map_eq_some'.mp hD
  obtain ⟨haD, hsD, hbleD, htotD, hsoundD, hcompD⟩ :=
    (dfs_spec skills (effectiveRecast skills gearCombo) timeLimit fuelD).1 _ _ _ _ _ _ haccD
  rw [findBestDamageScheduleBounded] at hB
  obtain ⟨accB, haccB, hmapB⟩ := Option.map_eq_some'.mp hB
  have hrD : rD.totalDamage = accD.1.1 := by rw [← hmapD]
  have hrB : rB.totalDamage = accB.1 := by rw [← hmapB]
  obtain ⟨isB, hlegB, hdB, hnB⟩ := bfsLoop_sound skills (effectiveRecast skills gearCombo)
    timeLimit K fuelB _ _ _ _ (initial_queue_good _ _ _) (initial_best_good _ _ _) haccB
  have hle1 : rB.totalDamage ≤ rD.totalDamage := by
    rw [hrB, hrD, hdB]
    have := hcompD isB hlegB
    linarith
  refine ⟨hle1, ?_⟩
  intro hK
  obtain ⟨hble, hall⟩ := bfsLoop_complete skills (effectiveRecast skills gearCombo)
    timeLimit K fuelB _ _ _ _ (by simpa [heapsSize] using hK) haccB
  refine le_antisymm hle1 ?_
  rcases hsoundD with hinit | ⟨isD, hlegD, hdD, hnD⟩
  · rw [hrD, hinit, hrB]
    exact hble
  · rw [hrD, hdD, hrB]
    have hfin := hall (initialBState skills) (List.mem_singleton.mpr rfl) isD hlegD
    have hzero : (initialBState skills).damageSoFar = 0 := rfl
    rw [hzero, zero_add] at hfin
    linarith

/-- Witness for C2 on a concrete one-action input. -/
theorem C2_bounded_vs_exhaustive_witness :
    findBestDamageSchedule [⟨"A", 1, 5, 10, [0]⟩] [0] 3 3 = some ⟨10, ["A"]⟩
    ∧ findBestDamageScheduleBounded [⟨"A", 1, 5, 10, [0]⟩] [0] 3 5 3 = some ⟨10, ["A"]⟩
    ∧ ((⟨10, ["A"]⟩ : ScheduleResult).totalDamage
          ≤ (⟨10, ["A"]⟩ : ScheduleResult).totalDamage
      ∧ (([⟨"A", 1, 5, 10, [0]⟩] : List Skill).length * 3 ≤ 5 →
          (⟨10, ["A"]⟩ : ScheduleResult).totalDamage
            = (⟨10, ["A"]⟩ : ScheduleResult).totalDamage)) := by
  have h1 : findBestDamageSchedule [⟨"A", 1, 5, 10, [0]⟩] [0] 3 3 = some ⟨10, ["A"]⟩ := by
    with_unfolding_all rfl
  have h2 : findBestDamageScheduleBounded [⟨"A", 1, 5, 10, [0]⟩] [0] 3 5 3
      = some ⟨10, ["A"]⟩ := by
    with_unfolding_all rfl
  exact ⟨h1, h2, C2_bounded_vs_exhaustive [⟨"A", 1, 5, 10, [0]⟩] [0] 3 5 3 3 _ _ h1 h2⟩

/-- C3: every schedule returned by either strategy replays legally from
the root state: there is a sequence of roster indices whose replay
(starting each cast at `max(currentTime, nextAvailableTime[i])`, never
before the action's `nextAvailableTime`, ending every cast by
`timeLimit`) produces exactly the returned name sequence, and the
returned damage is the sum of the replayed casts' damage values. -/
theorem C3_returned_schedule_replays (skills : List Skill) (gearCombo : List ℚ)
    (timeLimit : ℚ) :
    (∀ (fuel : ℕ) (r : ScheduleResult),
      findBestDamageSchedule skills gearCombo timeLimit fuel = some r →
      ∃ is, legalFromB skills (effectiveRecast skills gearCombo) timeLimit 0
          (List.replicate skills.length 0) is = true
        ∧ r.totalDamage = seqDamage skills is
        ∧ r.sequence = seqNames skills is)
    ∧ ∀ (K fuel : ℕ) (r : ScheduleResult),
      findBestDamageScheduleBounded skills gearCombo timeLimit K fuel = some r →
      ∃ is, legalFromB skills (effectiveRecast skills gearCombo) timeLimit 0
          (List.replicate skills.length 0) is = true
        ∧ r.totalDamage = seqDamage skills is
        ∧ r.sequence = seqNames skills is := by
  constructor
  · intro fuel r h
    rw [findBestDamageSchedule] at h
    obtain ⟨acc, hacc, hmap⟩ := Option.map_eq_some'.mp h
    obtain ⟨_, _, _, _, hsound, _⟩ :=
      (dfs_spec skills (effectiveRecast skills gearCombo) timeLimit fuel).1 _ _ _ _ _ _ hacc
    have hr1 : r.totalDamage = acc.1.1 := by rw [← hmap]
    have hr2 : r.sequence = acc.1.2 := by rw [← hmap]
    rcases hsound with hinit | ⟨is, hleg, hd, hn⟩
    · refine ⟨[], rfl, ?_, ?_⟩
      · rw [hr1, hinit]
        simp [seqDamage]
      · rw [hr2, hinit]
        simp [seqNames]
    · refine ⟨is, hleg, ?_, ?_⟩
      · rw [hr1, hd]
        simp
      · rw [hr2, hn]
        simp
  · intro K fuel r h
    rw [findBestDamageScheduleBounded] at h
    obtain ⟨b, hb, hmap⟩ := Option.map_eq_some'.mp h
    obtain ⟨is, hleg, hd, hn⟩ := bfsLoop_sound skills (effectiveRecast skills gearCombo)
      timeLimit K fuel _ _ _ _ (initial_queue_good _ _ _) (initial_best_good _ _ _) hb
    refine ⟨is, hleg, ?_, ?_⟩
    · rw [← hmap]
      exact hd
    · rw [← hmap]
      exact hn

/-- Witness for C3 on a concrete one-action input, both strategies. -/
theorem C3_returned_schedule_replays_witness :
    findBestDamageSchedule [⟨"A", 1, 5, 10, [0]⟩] [0] 3 3 = some ⟨10, ["A"]⟩
    ∧ findBestDamageScheduleBounded [⟨"A", 1, 5, 10, [0]⟩] [0] 3 6 3 = some ⟨10, ["A"]⟩
    ∧ (∃ is, legalFromB [⟨"A", 1, 5, 10, [0]⟩]
          (effectiveRecast [⟨"A", 1, 5, 10, [0]⟩] [0]) 3 0
          (List.replicate ([⟨"A", 1, 5, 10, [0]⟩] : List Skill).length 0) is = true
        ∧ (⟨10, ["A"]⟩ : ScheduleResult).totalDamage = seqDamage [⟨"A", 1, 5, 10, [0]⟩] is
        ∧ (⟨10, ["A"]⟩ : ScheduleResult).sequence = seqNames [⟨"A", 1, 5, 10, [0]⟩] is)
    ∧ (∃ is, legalFromB [⟨"A", 1, 5, 10, [0]⟩]
          (effectiveRecast [⟨"A", 1, 5, 10, [0]⟩] [0]) 3 0
          (List.replicate ([⟨"A", 1, 5, 10, [0]⟩] : List Skill).length 0) is = true
        ∧ (⟨10, ["A"]⟩ : ScheduleResult).totalDamage = seqDamage [⟨"A", 1, 5, 10, [0]⟩] is
        ∧ (⟨10, ["A"]⟩ : ScheduleResult).sequence = seqNames [⟨"A", 1, 5, 10, [0]⟩] is) := by
  have h1 : findBestDamageSchedule [⟨"A", 1, 5, 10, [0]⟩] [0] 3 3 = some ⟨10, ["A"]⟩ := by
    with_unfolding_all rfl
  have h2 : findBestDamageScheduleBounded [⟨"A", 1, 5, 10, [0]⟩] [0] 3 6 3
      = some ⟨10, ["A"]⟩ := by
    with_unfolding_all rfl
  exact ⟨h1, h2,
    (C3_returned_schedule_replays [⟨"A", 1, 5, 10, [0]⟩] [0] 3).1 3 _ h1,
    (C3_returned_schedule_replays [⟨"A", 1, 5, 10, [0]⟩] [0] 3).2 6 3 _ h2⟩

/-- C9: both strategies are deterministic — any two finished runs on the
same input (any fuels) return the same `ScheduleResult` — and the
exhaustive search has no effect beyond its return value: the
`nextAvailTimes` and `castSequence` buffers it mutates in place are
returned exactly as they were passed in (the undo-on-backtrack
discipline), and the roster and assignment are untouched parameters in
the model. -/
theorem C9_determinism_and_restore :
    (∀ (skills : List Skill) (gearCombo : List ℚ) (timeLimit : ℚ) (f₁ f₂ : ℕ)
        (r₁ r₂ : ScheduleResult),
      findBestDamageSchedule skills gearCombo timeLimit f₁ = some r₁ →
      findBestDamageSchedule skills gearCombo timeLimit f₂ = some r₂ → r₁ = r₂)
    ∧ (∀ (skills : List Skill) (gearCombo : List ℚ) (timeLimit : ℚ) (K f₁ f₂ : ℕ)
        (r₁ r₂ : ScheduleResult),
      findBestDamageScheduleBounded skills gearCombo timeLimit K f₁ = some r₁ →
      findBestDamageScheduleBounded skills gearCombo timeLimit K f₂ = some r₂ → r₁ = r₂)
    ∧ ∀ (skills : List Skill) (effRecast : List ℚ) (tl : ℚ) (fuel : ℕ)
        (cur total : ℚ) (avail a : List ℚ) (seq s : List String) (best b : Best),
      dfs skills effRecast tl fuel cur total avail seq best = some (b, a, s) →
      a = avail ∧ s = seq := by
  refine ⟨?_, ?_, ?_⟩
  · intro skills gearCombo timeLimit f₁ f₂ r₁ r₂ h₁ h₂
    rw [findBestDamageSchedule] at h₁ h₂
    obtain ⟨acc₁, hacc₁, hmap₁⟩ := Option.map_eq_some'.mp h₁
    obtain ⟨acc₂, hacc₂, hmap₂⟩ := Option.map_eq_some'.mp h₂
    have heq := dfs_fuel_agnostic skills (effectiveRecast skills gearCombo) timeLimit
      hacc₁ hacc₂
    rw [← hmap₁, ← hmap₂, heq]
  · intro skills gearCombo timeLimit K f₁ f₂ r₁ r₂ h₁ h₂
    rw [findBestDamageScheduleBounded] at h₁ h₂
    obtain ⟨b₁, hb₁, hmap₁⟩ := Option.map_eq_some'.mp h₁
    obtain ⟨b₂, hb₂, hmap₂⟩ := Option.map_eq_some'.mp h₂
    have heq : b₁ = b₂ := by
      rcases le_total f₁ f₂ with hle | hle
      · have h := bfsLoop_mono_le skills (effectiveRecast skills gearCombo) timeLimit K
          hle hb₁
        rw [h] at hb₂
        exact Option.some_injective _ hb₂
      · have h := bfsLoop_mono_le skills (effectiveRecast skills gearCombo) timeLimit K
          hle hb₂
        rw [h] at hb₁
        exact (Option.some_injective _ hb₁).symm
    rw [← hmap₁, ← hmap₂, heq]
  · intro skills effRecast tl fuel cur total avail a seq s best b h
    have hspec := (dfs_spec skills effRecast tl fuel).1 _ _ _ _ _ _ h
    exact ⟨hspec.1, hspec.2.1⟩

/-- Witness for C9: two runs of each strategy at different fuels agree,
and a concrete exhaustive run returns its buffers unchanged. -/
theorem C9_determinism_and_restore_witness :
    findBestDamageSchedule [⟨"A", 1, 5, 10, [0]⟩] [0] 11 4 = some ⟨20, ["A", "A"]⟩
    ∧ findBestDamageSchedule [⟨"A", 1, 5, 10, [0]⟩] [0] 11 6 = some ⟨20, ["A", "A"]⟩
    ∧ (⟨20, ["A", "A"]⟩ : ScheduleResult) = ⟨20, ["A", "A"]⟩
    ∧ findBestDamageScheduleBounded [⟨"A", 1, 5, 10, [0]⟩] [0] 3 5 3 = some ⟨10, ["A"]⟩
    ∧ findBestDamageScheduleBounded [⟨"A", 1, 5, 10, [0]⟩] [0] 3 5 4 = some ⟨10, ["A"]⟩
    ∧ (⟨10, ["A"]⟩ : ScheduleResult) = ⟨10, ["A"]⟩
    ∧ dfs [⟨"A", 1, 5, 10, [0]⟩] [5] 11 4 0 0 [0] [] (0, [])
        = some ((20, ["A", "A"]), [0], [])
    ∧ ([0] : List ℚ) = [0] ∧ ([] : List String) = [] := by
  have h1 : findBestDamageSchedule [⟨"A", 1, 5, 10, [0]⟩] [0] 11 4
      = some ⟨20, ["A", "A"]⟩ := by
    with_unfolding_all rfl
  have h2 : findBestDamageSchedule [⟨"A", 1, 5, 10, [0]⟩] [0] 11 6
      = some ⟨20, ["A", "A"]⟩ := by
    with_unfolding_all rfl
  have h3 : findBestDamageScheduleBounded [⟨"A", 1, 5, 10, [0]⟩] [0] 3 5 3
      = some ⟨10, ["A"]⟩ := by
    with_unfolding_all rfl
  have h4 : findBestDamageScheduleBounded [⟨"A", 1, 5, 10, [0]⟩] [0] 3 5 4
      = some ⟨10, ["A"]⟩ := by
    with_unfolding_all rfl
  have h5 : dfs [⟨"A", 1, 5, 10, [0]⟩] [5] 11 4 0 0 [0] [] (0, [])
      = some ((20, ["A", "A"]), [0], []) := by
    with_unfolding_all rfl
  exact ⟨h1, h2, C9_determinism_and_restore.1 _ _ _ _ _ _ _ h1 h2,
    h3, h4, C9_determinism_and_restore.2.1 _ _ _ _ _ _ _ _ h3 h4,
    h5, (C9_determinism_and_restore.2.2 _ _ _ _ _ _ _ _ _ _ _ _ h5).1,
    (C9_determinism_and_restore.2.2 _ _ _ _ _ _ _ _ _ _ _ _ h5).2⟩

/-! ### Lemmas about the setup optimizer -/

theorem findBest_nonneg (skills : List Skill) (gearCombo : List ℚ) (tl : ℚ)
    (fuel : ℕ) (r : ScheduleResult)
    (h : findBestDamageSchedule skills gearCombo tl fuel = some r) :
    0 ≤ r.totalDamage := by
  rw [findBestDamageSchedule] at h
  obtain ⟨acc, hacc, hmap⟩ := Option.map_eq_some'.mp h
  have hble := ((dfs_spec skills (effectiveRecast skills gearCombo) tl fuel).1
    _ _ _ _ _ _ hacc).2.2.1
  rw [← hmap]
  exact hble

/-- A `findBestDpsSetup` accumulator realised by one of the enumerated
gear combos: the tracked gear is an enumerated combo, the tracked damage
is that combo's schedule-search damage, and the tracked cost is that
combo's summed gear percentage. -/
def GoodDps (skills : List Skill) (tl : ℚ) (fuel : ℕ) (acc : DpsAcc) : Prop :=
  acc.2.2.1 ∈ generateAllGearChoices skills
  ∧ ∃ r, findBestDamageSchedule skills acc.2.2.1 tl fuel = some r
      ∧ acc.1 = r.totalDamage ∧ acc.2.2.2 = (gearCost acc.2.2.1 : WithTop ℚ)

/-- The running best's damage never decreases along the optimizer loop,
and while it stays unchanged the tracked gear cost never increases. -/
theorem dpsLoop_mono_spec (skills : List Skill) (tl : ℚ) (fuel : ℕ) :
    ∀ (l : List (List ℚ)) (acc res : DpsAcc),
      dpsLoop skills tl fuel l acc = some res →
      acc.1 ≤ res.1 ∧ (res.1 = acc.1 → res.2.2.2 ≤ acc.2.2.2) := by
  intro l
  induction l with
  | nil =>
      intro acc res h
      simp only [dpsLoop, Option.some.injEq] at h
      rw [← h]
      exact ⟨le_refl _, fun _ => le_refl _⟩
  | cons c rest ih =>
      intro acc res h
      simp only [dpsLoop] at h
      cases hfind : findBestDamageSchedule skills c tl fuel with
      | none => rw [hfind] at h; cases h
      | some r =>
          rw [hfind] at h
          dsimp only at h
          split at h
          case isTrue hgt =>
            obtain ⟨h1, h2⟩ := ih _ _ h
            refine ⟨le_trans (le_of_lt hgt) h1, fun hres => ?_⟩
            exact absurd (lt_of_lt_of_le hgt h1) (by rw [hres]; exact lt_irrefl _)
          case isFalse hgt =>
            split at h
            case isTrue heq =>
              split at h
              case isTrue hcost =>
                obtain ⟨h1, h2⟩ := ih _ _ h
                exact ⟨h1, fun hres => le_trans (h2 hres) (le_of_lt hcost)⟩
              case isFalse hcost =>
                exact ih _ _ h
            case isFalse heq =>
              exact ih _ _ h

/-- Every combo visited by the optimizer loop has its schedule searched,
its damage is dominated by the final best, and if it ties the final best
its cost is at least the final tracked cost. -/
theorem dpsLoop_combo_spec (skills : List Skill) (tl : ℚ) (fuel : ℕ) :
    ∀ (l : List (List ℚ)) (acc res : DpsAcc),
      dpsLoop skills tl fuel l acc = some res →
      ∀ c ∈ l, ∃ r, findBestDamageSchedule skills c tl fuel = some r
        ∧ r.totalDamage ≤ res.1
        ∧ (r.totalDamage = res.1 → res.2.2.2 ≤ (gearCost c : WithTop ℚ)) := by
  intro l
  induction l with
  | nil => intro acc res h c hc; cases hc
  | cons c0 rest ih =>
      intro acc res h c hc
      simp only [dpsLoop] at h
      cases hfind : findBestDamageSchedule skills c0 tl fuel with
      | none => rw [hfind] at h; cases h
      | some r0 =>
          rw [hfind] at h
          dsimp only at h
          split at h
          case isTrue hgt =>
            obtain ⟨hm1, hm2⟩ := dpsLoop_mono_spec skills tl fuel rest _ res h
            rcases List.mem_cons.mp hc with rfl | hc'
            · exact ⟨r0, hfind, hm1, fun htie => hm2 htie.symm⟩
            · exact ih _ res h c hc'
          case isFalse hgt =>
            split at h
            case isTrue heq =>
              split at h
              case isTrue hcost =>
                obtain ⟨hm1, hm2⟩ := dpsLoop_mono_spec skills tl fuel rest _ res h
                rcases List.mem_cons.mp hc with rfl | hc'
                · refine ⟨r0, hfind, ?_, fun htie => ?_⟩
                  · rw [heq]
                    exact hm1
                  · exact hm2 (by rw [← htie]; exact heq)
                · exact ih _ res h c hc'
              case isFalse hcost =>
                obtain ⟨hm1, hm2⟩ := dpsLoop_mono_spec skills tl fuel rest _ res h
                rcases List.mem_cons.mp hc with rfl | hc'
                · refine ⟨r0, hfind, ?_, fun htie => ?_⟩
                  · rw [heq]
                    exact hm1
                  · exact le_trans (hm2 (by rw [← htie]; exact heq)) (le_of_not_lt hcost)
                · exact ih _ res h c hc'
            case isFalse heq =>
              obtain ⟨hm1, hm2⟩ := dpsLoop_mono_spec skills tl fuel rest _ res h
              rcases List.mem_cons.mp hc with rfl | hc'
              · have hlt : r0.totalDamage < acc.1 := lt_of_le_of_ne (le_of_not_lt hgt) heq
                refine ⟨r0, hfind, le_trans (le_of_lt hlt) hm1, fun htie => ?_⟩
                exact absurd (lt_of_lt_of_le hlt hm1) (by rw [htie]; exact lt_irrefl _)
              · exact ih _ res h c hc'

theorem dpsLoop_good_preserved (skills : List Skill) (tl : ℚ) (fuel : ℕ) :
    ∀ (l : List (List ℚ)) (acc res : DpsAcc),
      (∀ c ∈ l, c ∈ generateAllGearChoices skills) →
      GoodDps skills tl fuel acc →
      dpsLoop skills tl fuel l acc = some res →
      GoodDps skills tl fuel res := by
  intro l
  induction l with
  | nil =>
      intro acc res hsub hg h
      simp only [dpsLoop, Option.some.injEq] at h
      rwa [← h]
  | cons c0 rest ih =>
      intro acc res hsub hg h
      simp only [dpsLoop] at h
      cases hfind : findBestDamageSchedule skills c0 tl fuel with
      | none => rw [hfind] at h; cases h
      | some r0 =>
          rw [hfind] at h
          dsimp only at h
          split at h
          case isTrue hgt =>
            exact ih (r0.totalDamage, r0.sequence, c0, ((gearCost c0 : ℚ) : WithTop ℚ)) res
              (fun c hc => hsub c (List.mem_cons_of_mem _ hc))
              ⟨hsub c0 (List.mem_cons_self _ _), r0, hfind, rfl, rfl⟩ h
          case isFalse hgt =>
            split at h
            case isTrue heq =>
              split at h
              case isTrue hcost =>
                exact ih (acc.1, r0.sequence, c0, ((gearCost c0 : ℚ) : WithTop ℚ)) res
                  (fun c hc => hsub c (List.mem_cons_of_mem _ hc))
                  ⟨hsub c0 (List.mem_cons_self _ _), r0, hfind, heq.symm, rfl⟩ h
              case isFalse hcost =>
                exact ih _ res (fun c hc => hsub c (List.mem_cons_of_mem _ hc)) hg h
            case isFalse heq =>
              exact ih _ res (fun c hc => hsub c (List.mem_cons_of_mem _ hc)) hg h

theorem dpsLoop_good_init (skills : List Skill) (tl : ℚ) (fuel : ℕ) :
    ∀ (c0 : List ℚ) (rest : List (List ℚ)) (res : DpsAcc),
      (∀ c ∈ c0 :: rest, c ∈ generateAllGearChoices skills) →
      dpsLoop skills tl fuel (c0 :: rest) (0, [], [], ⊤) = some res →
      GoodDps skills tl fuel res := by
  intro c0 rest res hsub h
  simp only [dpsLoop] at h
  cases hfind : findBestDamageSchedule skills c0 tl fuel with
  | none => rw [hfind] at h; cases h
  | some r0 =>
      rw [hfind] at h
      dsimp only at h
      split at h
      case isTrue hgt =>
        exact dpsLoop_good_preserved skills tl fuel rest
          (r0.totalDamage, r0.sequence, c0, ((gearCost c0 : ℚ) : WithTop ℚ)) res
          (fun c hc => hsub c (List.mem_cons_of_mem _ hc))
          ⟨hsub c0 (List.mem_cons_self _ _), r0, hfind, rfl, rfl⟩ h
      case isFalse hgt =>
        have hz : r0.totalDamage = 0 :=
          le_antisymm (le_of_not_lt hgt) (findBest_nonneg skills c0 tl fuel r0 hfind)
        split at h
        case isTrue heq =>
          split at h
          case isTrue hcost =>
            exact dpsLoop_good_preserved skills tl fuel rest
              ((0 : ℚ), r0.sequence, c0, ((gearCost c0 : ℚ) : WithTop ℚ)) res
              (fun c hc => hsub c (List.mem_cons_of_mem _ hc))
              ⟨hsub c0 (List.mem_cons_self _ _), r0, hfind, heq.symm, rfl⟩ h
          case isFalse hcost =>
            exact absurd (WithTop.coe_lt_top (gearCost c0)) hcost
        case isFalse heq =>
          exact absurd hz heq

/-- C5: the setup optimizer selects by maximum damage first, then by
strictly lower summed gear percentage.  For the returned result, every
enumerated assignment's schedule damage is at most `bestDamage`, every
assignment tying `bestDamage` has gear cost at least the chosen
assignment's cost (so of two equal-damage assignments the cheaper one is
selected), and the chosen assignment is an enumerated one attaining
`bestDamage`. -/
theorem C5_setupOptimizer_tiebreak (skills : List Skill) (timeLimit : ℚ) (fuel : ℕ)
    (res : DpsResult)
    (h : findBestDpsSetup skills timeLimit fuel = some res) :
    (∀ c ∈ generateAllGearChoices skills,
      ∃ r, findBestDamageSchedule skills c timeLimit fuel = some r
        ∧ r.totalDamage ≤ res.bestDamage
        ∧ (r.totalDamage = res.bestDamage →
            gearCost res.chosenGearPercents ≤ gearCost c))
    ∧ (generateAllGearChoices skills ≠ [] →
        res.chosenGearPercents ∈ generateAllGearChoices skills
        ∧ ∃ rc, findBestDamageSchedule skills res.chosenGearPercents timeLimit fuel
              = some rc
            ∧ rc.totalDamage = res.bestDamage) := by
  rw [findBestDpsSetup] at h
  obtain ⟨acc, hacc, hmap⟩ := Option.map_eq_some'.mp h
  have hbd : res.bestDamage = acc.1 := by rw [← hmap]
  have hcg : res.chosenGearPercents = acc.2.2.1 := by rw [← hmap]
  have hgood : generateAllGearChoices skills ≠ [] → GoodDps skills timeLimit fuel acc := by
    intro hne
    cases hcombos : generateAllGearChoices skills with
    | nil => exact absurd hcombos hne
    | cons c0 crest =>
        rw [hcombos] at hacc
        refine dpsLoop_good_init skills timeLimit fuel c0 crest acc ?_ hacc
        rw [← hcombos]
        exact fun x hx => hx
  constructor
  · intro c hcmem
    obtain ⟨r, hr, hle, htie⟩ :=
      dpsLoop_combo_spec skills timeLimit fuel _ _ _ hacc c hcmem
    refine ⟨r, hr, by rw [hbd]; exact hle, fun hteq => ?_⟩
    obtain ⟨hmem, rc, hrc, hdam, hbc⟩ := hgood (by
      intro hnil
      rw [hnil] at hcmem
      cases hcmem)
    have hcost := htie (by rw [← hbd]; exact hteq)
    rw [hbc] at hcost
    rw [hcg]
    exact_mod_cast hcost
  · intro hne
    obtain ⟨hmem, rc, hrc, hdam, hbc⟩ := hgood hne
    refine ⟨by rw [hcg]; exact hmem, rc, by rw [hcg]; exact hrc, ?_⟩
    rw [hbd, hdam]

/-- Witness for C5 on a roster whose two gear choices tie on damage: the
cheaper gear (0%) is selected. -/
theorem C5_setupOptimizer_tiebreak_witness :
    findBestDpsSetup [⟨"A", 1, 5, 10, [0, 10]⟩] 3 3
        = some ⟨10, 10 / 3, [0], ["A"]⟩
    ∧ ((∀ c ∈ generateAllGearChoices [⟨"A", 1, 5, 10, [0, 10]⟩],
        ∃ r, findBestDamageSchedule [⟨"A", 1, 5, 10, [0, 10]⟩] c 3 3 = some r
          ∧ r.totalDamage ≤ (⟨10, 10 / 3, [0], ["A"]⟩ : DpsResult).bestDamage
          ∧ (r.totalDamage = (⟨10, 10 / 3, [0], ["A"]⟩ : DpsResult).bestDamage →
              gearCost (⟨10, 10 / 3, [0], ["A"]⟩ : DpsResult).chosenGearPercents
                ≤ gearCost c))
      ∧ (generateAllGearChoices [⟨"A", 1, 5, 10, [0, 10]⟩] ≠ [] →
          (⟨10, 10 / 3, [0], ["A"]⟩ : DpsResult).chosenGearPercents
              ∈ generateAllGearChoices [⟨"A", 1, 5, 10, [0, 10]⟩]
          ∧ ∃ rc, findBestDamageSchedule [⟨"A", 1, 5, 10, [0, 10]⟩]
                (⟨10, 10 / 3, [0], ["A"]⟩ : DpsResult).chosenGearPercents 3 3 = some rc
              ∧ rc.totalDamage = (⟨10, 10 / 3, [0], ["A"]⟩ : DpsResult).bestDamage)) := by
  have h : findBestDpsSetup [⟨"A", 1, 5, 10, [0, 10]⟩] 3 3
      = some ⟨10, 10 / 3, [0], ["A"]⟩ := by
    with_unfolding_all rfl
  exact ⟨h, C5_setupOptimizer_tiebreak [⟨"A", 1, 5, 10, [0, 10]⟩] 3 3 _ h⟩
